import Mathlib

/-!
Verification of the fumble.com trade-reconstruction and hindsight pipeline
(`src/App.js`).

The JavaScript source is shallowly embedded as follows.

* JavaScript numbers are modelled by `JSNum := Option ℚ`: `some q` is a finite
  number (represented exactly as a rational), `none` is a non-finite value
  (`NaN`, as produced by `parseNumWithUnits` on placeholder fields).  The
  arithmetic operators propagate `none`, and every comparison involving `none`
  is `false`, matching IEEE/JS comparison semantics for `NaN`.
* Timestamps (`Date` objects, epoch milliseconds from `getTime()`) are
  modelled as `Int`.  All fills kept by the normalizer have valid dates, so no
  `NaN` time is needed.
* The stable `Array.prototype.sort` with comparator `a.time - b.time` is
  modelled by `List.mergeSort` with the boolean order `a.time ≤ b.time`
  (merge sort is the canonical stable ascending sort).
* The `Map` of per-`(symbol,direction)` lot queues is modelled as a total
  function `String → List Lot` whose default value is the empty queue, which
  is exactly the observable behaviour of the lazily-populated `Map`.
* The network (`fetch` against a base URL) is an external collaborator; it is
  modelled as an oracle `Net` mapping a base URL and a request to either a
  response or an error.  `async`/`await` sequencing is direct sequencing; the
  rate-limit `setTimeout` pause has no observable effect and is dropped.
* The `while` loop of `fetchAllKlines` is embedded with an explicit fuel
  argument (`none` result = fuel exhausted); the termination theorem for C6
  shows the fuel `(endTime - startTime).toNat` always suffices.
-/

/-! ## JavaScript number model -/

/-- Model of a JavaScript number: `none` is a non-finite value (NaN). -/
abbrev JSNum := Option ℚ

/-- Addition; `NaN` propagates. -/
def jsAdd : JSNum → JSNum → JSNum
  | some a, some b => some (a + b)
  | _, _ => none

/-- Subtraction; `NaN` propagates. -/
def jsSub : JSNum → JSNum → JSNum
  | some a, some b => some (a - b)
  | _, _ => none

/-- Multiplication; `NaN` propagates. -/
def jsMul : JSNum → JSNum → JSNum
  | some a, some b => some (a * b)
  | _, _ => none

/-- Division. `x / 0` is `±Infinity` or `NaN` in JS, i.e. non-finite. -/
def jsDiv : JSNum → JSNum → JSNum
  | some a, some b => if b = 0 then none else some (a / b)
  | _, _ => none

/-- Model of `Math.min`, which returns `NaN` if an argument is `NaN`. -/
def jsMin : JSNum → JSNum → JSNum
  | some a, some b => some (min a b)
  | _, _ => none

/-- The comparison `a > b`; false when an operand is `NaN`. -/
def jsGt : JSNum → JSNum → Bool
  | some a, some b => decide (b < a)
  | _, _ => false

/-- The comparison `a < b`; false when an operand is `NaN`. -/
def jsLt : JSNum → JSNum → Bool
  | some a, some b => decide (a < b)
  | _, _ => false

/-- The comparison `a <= b`; false when an operand is `NaN`. -/
def jsLe : JSNum → JSNum → Bool
  | some a, some b => decide (a ≤ b)
  | _, _ => false

/-- Unary minus. -/
def jsNeg : JSNum → JSNum :=
  Option.map (fun x => -x)

/-- Model of the source's `clamp(n, a, b) = Math.max(a, Math.min(b, n))`. -/
def clamp {α : Type} [LinearOrder α] (n a b : α) : α :=
  max a (min b n)

/-- Model of `minsBetween(a, b)` on valid dates: `NaN` when the span is
negative, otherwise the span in minutes.  (The `Number.isFinite(ms)` guard of
the source cannot fire for valid dates.) -/
def minsBetween (a b : Int) : JSNum :=
  if b - a < 0 then none else some ((b - a : ℚ) / 60000)

/-! ## Lot matcher (`buildClosedTradesFromFills`) -/

/-- Model of a normalized fill row produced by `parseBloFinRows`. -/
structure Fill where
  symbol : String
  side : String
  action : String
  direction : String
  time : Int
  avgFill : JSNum
  qty : JSNum
  pnl : JSNum
  pnlPct : JSNum
  fee : JSNum
deriving DecidableEq

/-- Model of an open lot `{ time, price, qty }` in a FIFO queue. -/
structure Lot where
  time : Int
  price : JSNum
  qty : JSNum
deriving DecidableEq

/-- Model of a closed trade object pushed by `buildClosedTradesFromFills`.
Fields guarded by `Number.isFinite(x) ? x : null` in the source collapse to
the `JSNum` value itself, since `none` covers both NaN and null. -/
structure ClosedTrade where
  exchange : String
  symbol : String
  direction : String
  entryPrice : JSNum
  exitPrice : JSNum
  qty : JSNum
  pnl : JSNum
  pnlPct : JSNum
  holdMins : JSNum
  closeTime : Int
  note : Option String
deriving DecidableEq

/-- The loop state of the CLOSE matching loop, after the loop has finished:
accumulated matched quantity, matched notional, earliest matched lot time, and
the remaining queue. -/
structure ConsumeRes where
  entryQtyTotal : JSNum
  entryNotional : JSNum
  entryTime : Option Int
  stack : List Lot
deriving DecidableEq

/-- The epsilon `1e-12` used to discard an exhausted lot. -/
def lotEps : ℚ := 1 / 10 ^ 12

/-- Direct embedding of the `while (remaining > 0 && stack.length > 0)` loop
of the CLOSE branch: takes `min(remaining, lot.qty)` from the head lot,
accumulates quantity, notional and the earliest lot time, and shifts the head
lot once its quantity is at most `1e-12`. -/
def consumeLoop : JSNum → JSNum → JSNum → Option Int → List Lot → ConsumeRes
  | remaining, eqt, en, et, [] => ⟨eqt, en, et, []⟩
  | remaining, eqt, en, et, lot :: rest =>
    if hg : jsGt remaining (some 0) = true then
      let take := jsMin remaining lot.qty
      let eqt' := jsAdd eqt take
      let en' := jsAdd en (jsMul take lot.price)
      let et' : Option Int := some (match et with
        | none => lot.time
        | some t => if lot.time < t then lot.time else t)
      let lotQty' := jsSub lot.qty take
      let remaining' := jsSub remaining take
      if hk : jsLe lotQty' (some lotEps) = true then
        consumeLoop remaining' eqt' en' et' rest
      else
        consumeLoop remaining' eqt' en' et' (⟨lot.time, lot.price, lotQty'⟩ :: rest)
    else ⟨eqt, en, et, lot :: rest⟩
termination_by r _ _ _ s => s.length * 2 + (if jsGt r (some 0) = true then 1 else 0)
decreasing_by
· simp only [List.length_cons]
  split <;> omega
· simp only [List.length_cons]
  have hz : jsGt (jsSub remaining (jsMin remaining lot.qty)) (some 0) = false := by
    rcases remaining with _ | r
    · simp [jsGt] at hg
    · rcases hq : lot.qty with _ | q
      · simp [jsMin, jsSub, jsGt]
      · rcases le_total r q with h | h
        · simp [jsMin, jsSub, jsGt, min_eq_left h]
        · exfalso
          apply hk
          unfold lotQty' take
          simp [hq, jsMin, jsSub, jsLe, min_eq_right h, lotEps]
  simp [hz, hg]

/-- The queue key `` `${f.symbol}|${f.direction}` ``. -/
def fillKey (f : Fill) : String :=
  f.symbol ++ "|" ++ f.direction

/-- Point update of the queue map, modelling `stacks.set(key, s)` on the lazily-populated `Map`. -/
def updateStacks (qs : String → List Lot) (key : String) (s : List Lot) :
    String → List Lot :=
  fun k => if k = key then s else qs k

/-- The closed-trade object pushed for a CLOSE fill `f`, given the final
matching-loop state `r`. -/
def closeTradeOf (f : Fill) (r : ConsumeRes) : ClosedTrade :=
  let entryPrice : JSNum :=
    if jsGt r.entryQtyTotal (some 0) = true then jsDiv r.entryNotional r.entryQtyTotal
    else none
  { exchange := "BloFin"
    symbol := f.symbol
    direction := f.direction
    entryPrice := entryPrice
    exitPrice := f.avgFill
    qty := f.qty
    pnl := f.pnl
    pnlPct := f.pnlPct
    holdMins := match r.entryTime with
      | some t0 => minsBetween t0 f.time
      | none => none
    closeTime := f.time
    note :=
      if jsGt r.entryQtyTotal (some 0) = true then none
      else some "No matching open found (CSV may be partial)." }

/-- One iteration of the `for (const f of sorted)` loop: state is the queue
map together with the closed trades emitted so far. -/
def processFill (st : (String → List Lot) × List ClosedTrade) (f : Fill) :
    (String → List Lot) × List ClosedTrade :=
  let key := fillKey f
  let stack := st.1 key
  if f.action = "OPEN" then
    (updateStacks st.1 key (stack ++ [⟨f.time, f.avgFill, f.qty⟩]), st.2)
  else if f.action = "CLOSE" then
    let r := consumeLoop f.qty (some 0) (some 0) none stack
    (updateStacks st.1 key r.stack, st.2 ++ [closeTradeOf f r])
  else st

/-- The stable ascending sort `fills.slice().sort((a, b) => a.time - b.time)`. -/
def sortFillsByTime (fills : List Fill) : List Fill :=
  fills.mergeSort (fun a b => decide (a.time ≤ b.time))

/-- Embedding of `buildClosedTradesFromFills`. -/
def buildClosedTradesFromFills (fills : List Fill) : List ClosedTrade :=
  ((sortFillsByTime fills).foldl processFill (fun _ => [], [])).2

/-! ## Behavioral scorer (`summarizeClosedTrades`) -/

/-- Embedding of `mean`: the mean of the finite entries, NaN when none. -/
def mean (arr : List JSNum) : JSNum :=
  let a := arr.filterMap id
  if a.length = 0 then none else some (a.sum / (a.length : ℚ))

/-- The summary record, without the `fumbleScore` field (which needs real
logarithms and is defined separately as `summaryFumbleScore`). -/
structure Summary where
  n : Nat
  winRate : JSNum
  totalPnl : ℚ
  paperhands : JSNum
deriving DecidableEq

/-- Embedding of `summarizeClosedTrades` up to and including `paperhands`. -/
def summarizeClosedTrades (trades : List ClosedTrade) : Summary :=
  let n := trades.length
  let wins := trades.filter (fun t => jsGt t.pnl (some 0))
  let losses := trades.filter (fun t => jsLt t.pnl (some 0))
  let winRate : JSNum := if 0 < n then some ((wins.length : ℚ) / (n : ℚ)) else none
  let totalPnl : ℚ := ((trades.map (fun t => t.pnl)).filterMap id).sum
  let avgWinHold := mean (wins.map (fun t => t.holdMins))
  let avgLossHold := mean (losses.map (fun t => t.holdMins))
  let paperhands : JSNum :=
    match avgWinHold, avgLossHold with
    | some w, some l => if 0 < l then some (w / l) else none
    | _, _ => none
  ⟨n, winRate, totalPnl, paperhands⟩

/-- Embedding of the `fumbleScore` computation
`clamp(60 - 20 * Math.log2(paperhands), 0, 100)` (NaN when `paperhands` is
NaN), on real numbers, following the extended-real semantics of `Math.log2`:
for a positive argument `Real.logb 2` agrees with `Math.log2` exactly;
`Math.log2(0) = -Infinity`, so `raw = +Infinity` and
`clamp(+Infinity, 0, 100) = 100`; `Math.log2` of a negative argument is NaN,
which propagates through `clamp`, leaving the score non-finite. -/
noncomputable def fumbleScoreOf (paperhands : JSNum) : Option ℝ :=
  match paperhands with
  | some p =>
    if p < 0 then none
    else if p = 0 then some 100
    else some (clamp (60 - 20 * Real.logb 2 (p : ℝ)) 0 100)
  | none => none

/-- The `fumbleScore` field of `summarizeClosedTrades`. -/
noncomputable def summaryFumbleScore (trades : List ClosedTrade) : Option ℝ :=
  fumbleScoreOf (summarizeClosedTrades trades).paperhands

/-! ## Symbol normalization and candles -/

/-- Character-level model of `String.trim` (JS `trim` removes surrounding
whitespace). -/
def trimChars (l : List Char) : List Char :=
  ((l.dropWhile Char.isWhitespace).reverse.dropWhile Char.isWhitespace).reverse

/-- Embedding of `normalizeToBinanceSymbol`: uppercase, remove every `-` and
`/`, trim.  (`replaceAll` with a single-character pattern and empty
replacement is exactly removal of that character.) -/
def normalizeToBinanceSymbol (sym : String) : String :=
  ⟨trimChars ((sym.data.map Char.toUpper).filter (fun c => ¬(c = '-' ∨ c = '/')))⟩

/-- A price candle as produced by `indexKlines`: open time, high, low. -/
structure Candle where
  t : Int
  high : ℚ
  low : ℚ
deriving DecidableEq

/-- Embedding of the scan loop of `bestPriceInWindow`.  The accumulator
`none` stands for the initial `±Infinity` seed together with `found = false`:
`Math.min(Infinity, x) = x` and `Math.max(-Infinity, x) = x`, and the source
returns `null` when `found` is still false. -/
def bestLoop (direction : String) (startMs endMs : Int) :
    List Candle → Option ℚ → Option ℚ
  | [], best => best
  | c :: rest, best =>
    if c.t < startMs then bestLoop direction startMs endMs rest best
    else if endMs < c.t then best
    else
      bestLoop direction startMs endMs rest
        (some (match best with
          | none => if direction = "SHORT" then c.low else c.high
          | some b => if direction = "SHORT" then min b c.low else max b c.high))

/-- Embedding of `bestPriceInWindow`. -/
def bestPriceInWindow (series : List Candle) (startMs endMs : Int)
    (direction : String) : Option ℚ :=
  bestLoop direction startMs endMs series none

/-! ## Price series fetcher -/

/-- A kline row returned by the price source; the source code uses only the
open time `k[0]`, the high `k[2]` and the low `k[3]` of each row. -/
structure RawKline where
  openTime : Int
  high : ℚ
  low : ℚ
deriving DecidableEq

/-- Embedding of `indexKlines`. -/
def indexKlines (klines : List RawKline) : List Candle :=
  klines.map (fun k => ⟨k.openTime, k.high, k.low⟩)

/-- The parameters of one klines GET request. -/
structure FetchReq where
  symbol : String
  interval : String
  startTime : Int
  endTime : Int
deriving DecidableEq

/-- The two base endpoints, primary first. -/
def BINANCE_BASES : List String :=
  ["https://api.binance.com", "https://data-api.binance.vision"]

/-- The network oracle: what one GET against a given base URL returns.
`Except.error` covers both a network failure and a non-ok HTTP status. -/
abbrev Net := String → FetchReq → Except String (List RawKline)

/-- The `for (const base of BINANCE_BASES)` loop of `fetchKlinesAnyBase`,
carrying `lastErr`. -/
def tryBases (net : Net) (req : FetchReq) :
    List String → Option String → Except String (List RawKline)
  | [], none => .error "Failed to fetch klines"
  | [], some e => .error e
  | base :: rest, lastErr =>
    match net base req with
    | .ok data => .ok data
    | .error e => tryBases net req rest (some e)

/-- Embedding of `fetchKlinesAnyBase`. -/
def fetchKlinesAnyBase (net : Net) (req : FetchReq) :
    Except String (List RawKline) :=
  tryBases net req BINANCE_BASES none

/-- One supported candle granularity. -/
structure IntervalSpec where
  label : String
  ms : Int
deriving DecidableEq

/-- The `INTERVALS` table. -/
def INTERVALS : List IntervalSpec :=
  [⟨"1m", 60000⟩, ⟨"5m", 300000⟩, ⟨"15m", 900000⟩]

/-- The lookup `INTERVALS.find(x => x.label === interval)?.ms ?? 300_000`. -/
def intervalMsOf (interval : String) : Int :=
  ((INTERVALS.find? (fun x => x.label = interval)).map (fun x => x.ms)).getD 300000

/-- The deduplication-by-open-time loop (first occurrence wins), with `seen`
as the set of open times already kept. -/
def dedupKlinesGo (seen : List Int) : List RawKline → List RawKline
  | [] => []
  | k :: rest =>
    if k.openTime ∈ seen then dedupKlinesGo seen rest
    else k :: dedupKlinesGo (k.openTime :: seen) rest

/-- The post-processing of `fetchAllKlines`: deduplicate by open time, then
sort ascending by open time (`dedup.sort((a, b) => a[0] - b[0])`). -/
def dedupSortKlines (out : List RawKline) : List RawKline :=
  (dedupKlinesGo [] out).mergeSort (fun a b => decide (a.openTime ≤ b.openTime))

/-- Embedding of the `while (t < endTime)` chunk loop of `fetchAllKlines`,
with explicit fuel; `none` means the fuel ran out (the termination theorem
shows this cannot happen with fuel `(endTime - startTime).toNat`). -/
def fetchAllKlinesLoop (net : Net) (symbol interval : String)
    (intervalMs maxSpan endTime : Int) :
    Nat → Int → List RawKline → Option (Except String (List RawKline))
  | fuel, t, out =>
    if t < endTime then
      match fuel with
      | 0 => none
      | fuel' + 1 =>
        let chunkEnd := min endTime (t + maxSpan)
        match fetchKlinesAnyBase net ⟨symbol, interval, t, chunkEnd⟩ with
        | .error e => some (.error e)
        | .ok kl =>
          let t' := match kl.getLast? with
            | some k => k.openTime + intervalMs
            | none => chunkEnd
          fetchAllKlinesLoop net symbol interval intervalMs maxSpan endTime fuel' t' (out ++ kl)
    else some (.ok (dedupSortKlines out))

/-- Embedding of `fetchAllKlines` (progress callbacks have no effect on the
result and are dropped). -/
def fetchAllKlines (net : Net) (symbol interval : String)
    (startTime endTime : Int) : Option (Except String (List RawKline)) :=
  let intervalMs := intervalMsOf interval
  let maxSpan := intervalMs * 1000
  fetchAllKlinesLoop net symbol interval intervalMs maxSpan endTime
    (endTime - startTime).toNat startTime []

/-! ## Hindsight evaluator (`runHindsight`) -/

/-- A hindsight result row `{...t, bestExit, potentialPnl, potentialPct,
realizedPnl, fumbled}`. -/
structure HRow where
  trade : ClosedTrade
  bestExit : JSNum
  potentialPnl : JSNum
  potentialPct : JSNum
  realizedPnl : JSNum
  fumbled : JSNum
deriving DecidableEq

/-- Embedding of the per-trade body of the `closedTrades.map` in
`runHindsight`; `seriesOf` is the `symbolSeries` map (`none` = symbol absent),
`realism` is already clamped to `[0,1]`. -/
def hindsightRow (seriesOf : String → Option (List Candle))
    (lookaheadMs : Int) (realism : ℚ) (t : ClosedTrade) : HRow :=
  match seriesOf (normalizeToBinanceSymbol t.symbol) with
  | none => ⟨t, none, none, none, t.pnl, none⟩
  | some series =>
    let startMs := t.closeTime
    let endMs := startMs + lookaheadMs
    match bestPriceInWindow series startMs endMs t.direction with
    | none => ⟨t, none, none, none, t.pnl, none⟩
    | some raw =>
      let bestExit : JSNum := match t.exitPrice with
        | some e => some (e + (raw - e) * realism)
        | none => some raw
      let potentialPnl : JSNum :=
        match t.entryPrice, bestExit, t.qty with
        | some entry, some be, some q =>
          some (if t.direction = "SHORT" then (entry - be) * q else (be - entry) * q)
        | _, _, _ => none
      let realized : JSNum := t.pnl
      let fumbled : JSNum :=
        match potentialPnl, realized with
        | some p, some r => some (max 0 (p - r))
        | _, _ => none
      let potentialPct : JSNum :=
        jsMul (jsDiv (jsSub bestExit t.entryPrice) t.entryPrice) (some 100)
      let potentialPct : JSNum :=
        if t.direction = "SHORT" then jsNeg potentialPct else potentialPct
      ⟨t, bestExit, potentialPnl, potentialPct, realized, fumbled⟩

/-- The pieces of React state that `runHindsight` reads or writes. -/
structure AppState where
  error : String
  hStatus : String
  hData : Option (List HRow)
  closedTrades : List ClosedTrade
deriving DecidableEq

/-- The insertion-ordered distinct symbol keys of the `bySymbol` map,
skipping trades whose normalized symbol is empty. -/
def symbolKeysGo (seen : List String) : List ClosedTrade → List String
  | [] => []
  | t :: rest =>
    let sym := normalizeToBinanceSymbol t.symbol
    if sym = "" then symbolKeysGo seen rest
    else if sym ∈ seen then symbolKeysGo seen rest
    else sym :: symbolKeysGo (sym :: seen) rest

/-- The `bySymbol` group of one symbol key. -/
def tradesForSymbol (trades : List ClosedTrade) (sym : String) : List ClosedTrade :=
  trades.filter (fun t => normalizeToBinanceSymbol t.symbol = sym)

/-- The symbol-by-symbol fetch loop of `runHindsight`: fetches each symbol's
candle range in order and builds the `symbolSeries` map; the first failed
symbol aborts the whole phase with its error (the thrown exception).  The
outer `none` again signals fuel exhaustion inside `fetchAllKlines`. -/
def fetchPhase (net : Net) (interval : String) (lookaheadMs intervalMs : Int)
    (trades : List ClosedTrade) :
    List String → Option (Except String (String → Option (List Candle)))
  | [] => some (.ok (fun _ => none))
  | sym :: rest =>
    let group := tradesForSymbol trades sym
    match (group.map (fun t => t.closeTime)).min?,
          (group.map (fun t => t.closeTime)).max? with
    | some minClose, some maxClose =>
      let startTime := minClose - intervalMs * 2
      let endTime := maxClose + lookaheadMs + intervalMs * 2
      match fetchAllKlines net sym interval startTime endTime with
      | none => none
      | some (.error e) => some (.error e)
      | some (.ok kl) =>
        match fetchPhase net interval lookaheadMs intervalMs trades rest with
        | none => none
        | some (.error e) => some (.error e)
        | some (.ok seriesOf) =>
          some (.ok (fun s => if s = sym then some (indexKlines kl) else seriesOf s))
    | _, _ => fetchPhase net interval lookaheadMs intervalMs trades rest

/-- Embedding of `runHindsight` as a state transformer: early return when
there are no closed trades; on a fetch failure the `catch` branch sets the
error message and clears the status, leaving `hData` as the `null` set at the
start; on success it stores the computed rows.  `closedTrades` is never
written.  The result is `none` only on fuel exhaustion. -/
def runHindsight (net : Net) (interval : String) (lookaheadHours : Int)
    (realismPct : ℚ) (st : AppState) : Option AppState :=
  if st.closedTrades.length = 0 then some st
  else
    let intervalMs := intervalMsOf interval
    let lookaheadMs := lookaheadHours * 3600000
    match fetchPhase net interval lookaheadMs intervalMs st.closedTrades
        (symbolKeysGo [] st.closedTrades) with
    | none => none
    | some (.error e) =>
      some { st with error := "Hindsight failed: " ++ e, hStatus := "", hData := none }
    | some (.ok seriesOf) =>
      let realism := clamp (realismPct / 100) 0 1
      let computed := st.closedTrades.map (hindsightRow seriesOf lookaheadMs realism)
      some { st with error := "", hStatus := "Roast complete ✅", hData := some computed }

/-! ## Helper lemmas about the matching loop -/

/-- Unfolding lemma: the loop on an empty queue. -/
theorem consumeLoop_nil (r eqt en : JSNum) (et : Option Int) :
    consumeLoop r eqt en et [] = ⟨eqt, en, et, []⟩ := by
  rw [consumeLoop.eq_def]

/-- Unfolding lemma: the loop stops when `remaining > 0` fails. -/
theorem consumeLoop_stop (r eqt en : JSNum) (et : Option Int) (lot : Lot)
    (rest : List Lot) (h : jsGt r (some 0) = false) :
    consumeLoop r eqt en et (lot :: rest) = ⟨eqt, en, et, lot :: rest⟩ := by
  rw [consumeLoop.eq_def]
  simp [h]

/-- Unfolding lemma: one iteration that exhausts (and shifts) the head lot. -/
theorem consumeLoop_shift (r eqt en : JSNum) (et : Option Int) (lot : Lot)
    (rest : List Lot) (hg : jsGt r (some 0) = true)
    (hk : jsLe (jsSub lot.qty (jsMin r lot.qty)) (some lotEps) = true) :
    consumeLoop r eqt en et (lot :: rest) =
      consumeLoop (jsSub r (jsMin r lot.qty)) (jsAdd eqt (jsMin r lot.qty))
        (jsAdd en (jsMul (jsMin r lot.qty) lot.price))
        (some (match et with
          | none => lot.time
          | some t => if lot.time < t then lot.time else t)) rest := by
  conv_lhs => rw [consumeLoop.eq_def]
  simp [hg, hk]

/-- Unfolding lemma: one iteration that only reduces the head lot. -/
theorem consumeLoop_keep (r eqt en : JSNum) (et : Option Int) (lot : Lot)
    (rest : List Lot) (hg : jsGt r (some 0) = true)
    (hk : jsLe (jsSub lot.qty (jsMin r lot.qty)) (some lotEps) = false) :
    consumeLoop r eqt en et (lot :: rest) =
      consumeLoop (jsSub r (jsMin r lot.qty)) (jsAdd eqt (jsMin r lot.qty))
        (jsAdd en (jsMul (jsMin r lot.qty) lot.price))
        (some (match et with
          | none => lot.time
          | some t => if lot.time < t then lot.time else t))
        (⟨lot.time, lot.price, jsSub lot.qty (jsMin r lot.qty)⟩ :: rest) := by
  conv_lhs => rw [consumeLoop.eq_def]
  simp [hg, hk]

/-- After an iteration that keeps a reduced head lot, the loop guard fails at
the next check: either the head quantity was `NaN` (so `remaining` became
`NaN`), or the whole remaining demand was taken (so `remaining` became `0`). -/
theorem jsGt_after_keep (r : JSNum) (lot : Lot)
    (hg : jsGt r (some 0) = true)
    (hk : jsLe (jsSub lot.qty (jsMin r lot.qty)) (some lotEps) = false) :
    jsGt (jsSub r (jsMin r lot.qty)) (some 0) = false := by
  rcases r with _ | r
  · simp [jsGt] at hg
  · rcases hq : lot.qty with _ | q
    · simp [jsMin, jsSub, jsGt]
    · rcases le_total r q with h | h
      · simp [jsMin, jsSub, jsGt, min_eq_left h]
      · exfalso
        rw [hq] at hk
        simp [jsMin, jsSub, jsLe, min_eq_right h, lotEps] at hk

/-- A queue whose lots all carry finite positive quantities. -/
def FiniteStack (s : List Lot) : Prop :=
  ∀ lot ∈ s, ∃ q : ℚ, lot.qty = some q ∧ 0 < q

/-- Quantity conservation of the CLOSE matching loop: starting from finite
demand `r ≥ 0` and accumulator `acc`, the loop consumes some `c` with
`0 ≤ c ≤ r`, it consumes strictly less than `r` only by emptying the queue,
and it consumes a positive amount whenever `r > 0` and the queue is
nonempty. -/
theorem consumeLoop_qty_spec :
    ∀ (s : List Lot), FiniteStack s → ∀ (r acc : ℚ) (en : JSNum) (et : Option Int),
      0 ≤ r →
      ∃ c : ℚ,
        (consumeLoop (some r) (some acc) en et s).entryQtyTotal = some (acc + c) ∧
        0 ≤ c ∧ c ≤ r ∧
        (c < r → (consumeLoop (some r) (some acc) en et s).stack = []) ∧
        (0 < r → s ≠ [] → 0 < c)
  | [], _, r, acc, en, et, hr => by
    refine ⟨0, ?_, le_refl 0, hr, ?_, ?_⟩
    · simp [consumeLoop_nil]
    · simp [consumeLoop_nil]
    · exact fun _ h => absurd rfl h
  | lot :: rest, hfin, r, acc, en, et, hr => by
    obtain ⟨q, hq, hqpos⟩ := hfin lot (List.mem_cons_self lot rest)
    by_cases hr0 : 0 < r
    · have hg : jsGt (some r) (some 0) = true := by simp [jsGt, hr0]
      have hmin : jsMin (some r) lot.qty = some (min r q) := by simp [jsMin, hq]
      have hminpos : 0 < min r q := lt_min hr0 hqpos
      by_cases hk : jsLe (jsSub lot.qty (jsMin (some r) lot.qty)) (some lotEps) = true
      · -- the head lot is exhausted and shifted
        rw [consumeLoop_shift _ _ _ _ _ _ hg hk, hmin]
        have hrest : FiniteStack rest := fun l hl => hfin l (List.mem_cons_of_mem _ hl)
        have hr' : (0 : ℚ) ≤ r - min r q := by
          have := min_le_left r q
          linarith
        obtain ⟨c', hc', hc0', hcle', hstk', _⟩ :=
          consumeLoop_qty_spec rest hrest (r - min r q) (acc + min r q)
            (jsAdd en (jsMul (some (min r q)) lot.price))
            (some (match et with
              | none => lot.time
              | some t => if lot.time < t then lot.time else t)) hr'
        refine ⟨min r q + c', ?_, ?_, ?_, ?_, ?_⟩
        · simpa [jsSub, jsAdd, add_assoc] using hc'
        · positivity
        · linarith
        · intro hlt
          have : c' < r - min r q := by linarith
          simpa [jsSub, jsAdd] using hstk' this
        · intro _ _
          positivity
      · -- the head lot is kept with a reduced quantity; the loop then stops
        rw [consumeLoop_keep _ _ _ _ _ _ hg (by simpa using hk)]
        have hstop := jsGt_after_keep (some r) lot hg (by simpa using hk)
        rw [consumeLoop_stop _ _ _ _ _ _ hstop]
        -- in this branch the whole demand was taken: `min r q = r`
        have hminr : min r q = r := by
          rcases le_total r q with h | h
          · exact min_eq_left h
          · exfalso
            apply hk
            rw [hq]
            simp [jsMin, jsSub, jsLe, min_eq_right h, lotEps]
        refine ⟨r, ?_, le_of_lt hr0, le_refl r, ?_, fun _ _ => hr0⟩
        · rw [hmin, hminr]
          simp [jsAdd]
        · intro h
          exact absurd h (lt_irrefl r)
    · -- `remaining > 0` already fails: nothing is consumed
      have hg : jsGt (some r) (some 0) = false := by
        simp [jsGt]
        linarith
      rw [consumeLoop_stop _ _ _ _ _ _ hg]
      refine ⟨0, by simp, le_refl 0, hr, ?_, fun h => absurd h hr0⟩
      intro hlt
      exact absurd (lt_of_le_of_lt (le_refl 0) hlt) hr0

/-- Helper: the note of an emitted trade is absent exactly when the matched
quantity is (finitely) positive. -/
theorem closeTradeOf_note_iff (f : Fill) (r : ConsumeRes) (c : ℚ)
    (hc : r.entryQtyTotal = some c) :
    ((closeTradeOf f r).note = none ↔ 0 < c) := by
  by_cases h0 : 0 < c <;> simp [closeTradeOf, hc, jsGt, h0]

/-- Helper: the CLOSE branch of `processFill` always appends exactly one
trade, built by `closeTradeOf` from the final matching-loop state. -/
theorem processFill_close (st : (String → List Lot) × List ClosedTrade) (f : Fill)
    (hf : f.action = "CLOSE") :
    processFill st f =
      (updateStacks st.1 (fillKey f)
          (consumeLoop f.qty (some 0) (some 0) none (st.1 (fillKey f))).stack,
        st.2 ++ [closeTradeOf f (consumeLoop f.qty (some 0) (some 0) none (st.1 (fillKey f)))]) := by
  have hne : ¬(f.action = "OPEN") := by rw [hf]; decide
  simp [processFill, hne, hf]

/-- Claim C1, counterexample: a CLOSE of quantity 2 against a single open lot
of quantity 1 is a partial match (consumed 1 < 2), yet the emitted trade's
`note` is `null` (it is set only when the matched quantity is zero); the
defined `entryPrice` of 100 confirms in the pipeline output itself that a
positive partial match happened. -/
theorem c1_counterexample :
    (buildClosedTradesFromFills
        [⟨"BTCUSDT", "Open Long", "OPEN", "LONG", 0, some 100, some 1, none, none, none⟩,
         ⟨"BTCUSDT", "Close Long", "CLOSE", "LONG", 10, some 110, some 2, some 5, some 1, none⟩]).map
        (fun t => (t.note, t.entryPrice)) = [(none, some 100)] ∧
    (consumeLoop (some 2) (some 0) (some 0) none [⟨0, some 100, some 1⟩]).entryQtyTotal = some 1 ∧
    (1 : ℚ) < 2 := by
  have hsort : sortFillsByTime
      [⟨"BTCUSDT", "Open Long", "OPEN", "LONG", 0, some 100, some 1, none, none, none⟩,
       ⟨"BTCUSDT", "Close Long", "CLOSE", "LONG", 10, some 110, some 2, some 5, some 1, none⟩] =
      [⟨"BTCUSDT", "Open Long", "OPEN", "LONG", 0, some 100, some 1, none, none, none⟩,
       ⟨"BTCUSDT", "Close Long", "CLOSE", "LONG", 10, some 110, some 2, some 5, some 1, none⟩] :=
    List.mergeSort_of_sorted (by decide)
  refine ⟨?_, ?_, by norm_num⟩
  · rw [buildClosedTradesFromFills, hsort]
    simp [processFill, fillKey, updateStacks, closeTradeOf, consumeLoop, jsGt, jsMin,
      jsSub, jsAdd, jsMul, jsLe, jsDiv, lotEps, minsBetween]
  · simp [consumeLoop, jsGt, jsMin, jsSub, jsAdd, jsMul, jsLe, lotEps]

/-- Claim C1 (amended): for a CLOSE fill with finite requested quantity
`Q ≥ 0` matched against a queue of finite positive lots, the trade is always
emitted; the consumed quantity `c` satisfies `0 ≤ c ≤ Q`, falls short of `Q`
only when the queue was emptied, and the note is set iff the consumed
quantity is zero (a partial nonzero match leaves the note `null`). -/
theorem c1_theorem (f : Fill) (st : (String → List Lot) × List ClosedTrade) (Q : ℚ)
    (hact : f.action = "CLOSE") (hq : f.qty = some Q) (hQ : 0 ≤ Q)
    (hfin : FiniteStack (st.1 (fillKey f))) :
    (processFill st f).2 =
      st.2 ++ [closeTradeOf f (consumeLoop f.qty (some 0) (some 0) none (st.1 (fillKey f)))] ∧
    ∃ c : ℚ,
      (consumeLoop f.qty (some 0) (some 0) none (st.1 (fillKey f))).entryQtyTotal = some c ∧
      0 ≤ c ∧ c ≤ Q ∧
      (c < Q → (consumeLoop f.qty (some 0) (some 0) none (st.1 (fillKey f))).stack = []) ∧
      ((closeTradeOf f (consumeLoop f.qty (some 0) (some 0) none (st.1 (fillKey f)))).note = none ↔
        0 < c) := by
  refine ⟨by rw [processFill_close st f hact], ?_⟩
  obtain ⟨c, hc, h0, hle, hstk, -⟩ :=
    consumeLoop_qty_spec _ hfin Q 0 (some 0) none hQ
  rw [hq]
  have hc' : (consumeLoop (some Q) (some 0) (some 0) none (st.1 (fillKey f))).entryQtyTotal =
      some c := by simpa using hc
  exact ⟨c, hc', h0, hle, hstk, closeTradeOf_note_iff f _ c hc'⟩

/-- Claim C1, witness: the amended theorem applied to a concrete CLOSE of
quantity 2 against one open lot of quantity 1. -/
theorem c1_witness :
    ∃ c : ℚ,
      (consumeLoop (some (2 : ℚ)) (some 0) (some 0) none
          [⟨0, some 100, some 1⟩]).entryQtyTotal = some c ∧
      0 ≤ c ∧ c ≤ 2 := by
  have hfin : FiniteStack ((fun _ => [(⟨0, some 100, some 1⟩ : Lot)]) "BTCUSDT|LONG") := by
    intro lot hl
    simp only [List.mem_singleton] at hl
    subst hl
    exact ⟨1, rfl, one_pos⟩
  have h := c1_theorem
      ⟨"BTCUSDT", "Close Long", "CLOSE", "LONG", 10, some 110, some 2, some 5, some 1, none⟩
      (fun _ => [⟨0, some 100, some 1⟩], []) 2 rfl rfl (by norm_num) hfin
  obtain ⟨-, c, hc, h0, hle, -⟩ := h
  exact ⟨c, by simpa using hc, h0, hle⟩

/-- Claim C10: the `qty` field of an emitted closed trade is always the CLOSE
fill's own (requested) quantity — `none` exactly when that quantity is
non-finite — never the quantity actually matched.  The second conjunct shows
this concretely on a partial match: a CLOSE of quantity 2 that only matched
quantity 1 still records `qty = 2`. -/
theorem c10_theorem :
    (∀ (f : Fill) (r : ConsumeRes), (closeTradeOf f r).qty = f.qty) ∧
    ((buildClosedTradesFromFills
        [⟨"ETHUSDT", "Open Long", "OPEN", "LONG", 0, some 100, some 1, none, none, none⟩,
         ⟨"ETHUSDT", "Close Long", "CLOSE", "LONG", 10, some 110, some 2, some 5, some 1, none⟩]).map
        (fun t => t.qty) = [some 2] ∧
      (consumeLoop (some 2) (some 0) (some 0) none
          [⟨0, some 100, some 1⟩]).entryQtyTotal = some 1) := by
  refine ⟨fun f r => rfl, ?_, ?_⟩
  · have hsort : sortFillsByTime
        [⟨"ETHUSDT", "Open Long", "OPEN", "LONG", 0, some 100, some 1, none, none, none⟩,
         ⟨"ETHUSDT", "Close Long", "CLOSE", "LONG", 10, some 110, some 2, some 5, some 1, none⟩] =
        [⟨"ETHUSDT", "Open Long", "OPEN", "LONG", 0, some 100, some 1, none, none, none⟩,
         ⟨"ETHUSDT", "Close Long", "CLOSE", "LONG", 10, some 110, some 2, some 5, some 1, none⟩] :=
      List.mergeSort_of_sorted (by decide)
    rw [buildClosedTradesFromFills, hsort]
    simp [processFill, fillKey, updateStacks, closeTradeOf, consumeLoop, jsGt, jsMin,
      jsSub, jsAdd, jsMul, jsLe, jsDiv, lotEps, minsBetween]
  · simp [consumeLoop, jsGt, jsMin, jsSub, jsAdd, jsMul, jsLe, lotEps]

/-- Helper: a defined `minsBetween` span is never negative. -/
theorem minsBetween_nonneg (a b : Int) (h : ℚ) (hm : minsBetween a b = some h) :
    0 ≤ h := by
  rw [minsBetween] at hm
  by_cases hab : b - a < 0
  · rw [if_pos hab] at hm
    exact absurd hm (by simp)
  · rw [if_neg hab] at hm
    rw [Option.some.injEq] at hm
    subst hm
    apply div_nonneg _ (by norm_num)
    rw [sub_nonneg]
    exact_mod_cast (by omega : a ≤ b)

/-- Helper: the mean of finite values that are all nonnegative is
nonnegative when defined. -/
theorem mean_nonneg (arr : List JSNum)
    (h : ∀ x ∈ arr, ∀ q : ℚ, x = some q → 0 ≤ q) :
    ∀ m : ℚ, mean arr = some m → 0 ≤ m := by
  intro m hm
  simp only [mean] at hm
  by_cases hlen : (arr.filterMap id).length = 0
  · rw [if_pos hlen] at hm
    exact absurd hm (by simp)
  · rw [if_neg hlen] at hm
    rw [Option.some.injEq] at hm
    subst hm
    apply div_nonneg
    · apply List.sum_nonneg
      intro x hx
      obtain ⟨y, hy, hxy⟩ := List.mem_filterMap.mp hx
      exact h y hy x hxy
    · positivity

/-- Helper: over trades with nonnegative hold durations, a defined
paperhands ratio is nonnegative (winner hold mean ≥ 0 over loser hold
mean > 0). -/
theorem paperhands_nonneg (trades : List ClosedTrade)
    (hhold : ∀ t ∈ trades, ∀ h : ℚ, t.holdMins = some h → 0 ≤ h) :
    ∀ p : ℚ, (summarizeClosedTrades trades).paperhands = some p → 0 ≤ p := by
  intro p hp
  simp only [summarizeClosedTrades] at hp
  split at hp
  · rename_i w l hw hl
    split at hp
    · rename_i hlpos
      rw [Option.some.injEq] at hp
      subst hp
      apply div_nonneg _ (le_of_lt hlpos)
      apply mean_nonneg _ _ w hw
      intro x hx q hxq
      obtain ⟨t, ht, hteq⟩ := List.mem_map.mp hx
      exact hhold t (List.mem_of_mem_filter ht) q (hteq ▸ hxq)
    · exact absurd hp (by simp)
  · exact absurd hp (by simp)

/-- Claim C8: every trade the matcher emits has a nonnegative (or undefined)
hold duration (first conjunct); over any trade list satisfying that
invariant, the fumble score is defined exactly when the paperhands ratio is
defined (second conjunct); it equals `clamp(60 - 20 * log2 paperhands, 0,
100)` — through `Real.logb` for a positive ratio (third conjunct), and
saturating at `100` for ratio `0`, where `Math.log2(0) = -Infinity` drives
the clamped expression to its upper bound (fourth conjunct); and every
defined score lies in `[0, 100]` (fifth conjunct). -/
theorem c8_theorem (trades : List ClosedTrade)
    (hhold : ∀ t ∈ trades, ∀ h : ℚ, t.holdMins = some h → 0 ≤ h) :
    (∀ (f : Fill) (r : ConsumeRes) (h : ℚ),
      (closeTradeOf f r).holdMins = some h → 0 ≤ h) ∧
    ((summaryFumbleScore trades).isSome ↔
      (summarizeClosedTrades trades).paperhands.isSome) ∧
    (∀ p : ℚ, (summarizeClosedTrades trades).paperhands = some p → 0 < p →
      summaryFumbleScore trades =
        some (clamp (60 - 20 * Real.logb 2 (p : ℝ)) 0 100)) ∧
    ((summarizeClosedTrades trades).paperhands = some 0 →
      summaryFumbleScore trades = some 100) ∧
    (∀ s : ℝ, summaryFumbleScore trades = some s → 0 ≤ s ∧ s ≤ 100) := by
  refine ⟨?_, ?_, ?_, ?_, ?_⟩
  · intro f r h hh
    simp only [closeTradeOf] at hh
    rcases het : r.entryTime with _ | t0
    · rw [het] at hh
      exact absurd hh (by simp)
    · rw [het] at hh
      exact minsBetween_nonneg t0 f.time h hh
  · rw [summaryFumbleScore]
    rcases hph : (summarizeClosedTrades trades).paperhands with _ | p
    · simp [fumbleScoreOf]
    · have hp0 : 0 ≤ p := paperhands_nonneg trades hhold p hph
      have hnneg : ¬(p < 0) := not_lt.mpr hp0
      by_cases hz : p = 0 <;> simp [fumbleScoreOf, hnneg, hz]
  · intro p hp hppos
    rw [summaryFumbleScore, hp]
    simp only [fumbleScoreOf]
    rw [if_neg (not_lt.mpr (le_of_lt hppos)), if_neg hppos.ne']
  · intro hp
    rw [summaryFumbleScore, hp]
    simp only [fumbleScoreOf]
    rw [if_neg (lt_irrefl (0 : ℚ))]
    simp
  · intro s hs
    rw [summaryFumbleScore] at hs
    rcases hph : (summarizeClosedTrades trades).paperhands with _ | p
    · rw [hph] at hs
      exact absurd hs (by simp [fumbleScoreOf])
    · rw [hph] at hs
      simp only [fumbleScoreOf] at hs
      by_cases hneg : p < 0
      · rw [if_pos hneg] at hs
        exact absurd hs (by simp)
      · rw [if_neg hneg] at hs
        by_cases hz : p = 0
        · rw [if_pos hz, Option.some.injEq] at hs
          subst hs
          norm_num
        · rw [if_neg hz, Option.some.injEq] at hs
          subst hs
          simp only [clamp]
          exact ⟨le_max_left _ _, max_le (by norm_num) (min_le_left _ _)⟩

/-- Claim C8, witness: one winning and one losing trade with equal positive
hold times give a paperhands ratio of 1 and a fumble score of exactly 60,
inside the claimed bounds. -/
theorem c8_witness :
    summaryFumbleScore
        [⟨"BloFin", "BTCUSDT", "LONG", some 100, some 110, some 1, some 1, none, some 10, 10, none⟩,
         ⟨"BloFin", "BTCUSDT", "LONG", some 100, some 90, some 1, some (-1), none, some 10, 20, none⟩] =
      some 60 ∧ (0 : ℝ) ≤ 60 ∧ (60 : ℝ) ≤ 100 := by
  have hhold : ∀ t ∈
      [(⟨"BloFin", "BTCUSDT", "LONG", some 100, some 110, some 1, some 1, none,
          some 10, 10, none⟩ : ClosedTrade),
        ⟨"BloFin", "BTCUSDT", "LONG", some 100, some 90, some 1, some (-1), none,
          some 10, 20, none⟩],
      ∀ h : ℚ, t.holdMins = some h → 0 ≤ h := by
    intro t ht h hh
    simp only [List.mem_cons, List.not_mem_nil, or_false] at ht
    rcases ht with rfl | rfl <;>
      (simp only [Option.some.injEq] at hh; rw [← hh]; norm_num)
  have hp : (summarizeClosedTrades
      [⟨"BloFin", "BTCUSDT", "LONG", some 100, some 110, some 1, some 1, none, some 10, 10, none⟩,
       ⟨"BloFin", "BTCUSDT", "LONG", some 100, some 90, some 1, some (-1), none, some 10, 20, none⟩]).paperhands =
      some 1 := by
    simp [summarizeClosedTrades, mean, jsGt, jsLt]
  have h := (c8_theorem _ hhold).2.2.1 1 hp one_pos
  have h60 : clamp (60 - 20 * Real.logb 2 ((1 : ℚ) : ℝ)) 0 100 = 60 := by
    rw [Rat.cast_one, Real.logb_one]
    norm_num [clamp]
  exact ⟨by rw [h, h60], by norm_num, by norm_num⟩

/-! ## Helper lemmas about deduplication and sorting of klines -/

/-- Helper: first-occurrence-wins characterization of the dedup loop: among
the rows with a fixed open time `t`, the output keeps none if `t` was already
seen, and otherwise exactly the first one of the input. -/
theorem dedupKlinesGo_filter (t : Int) :
    ∀ (seen : List Int) (l : List RawKline),
      (dedupKlinesGo seen l).filter (fun k => decide (k.openTime = t)) =
        if t ∈ seen then [] else (l.filter (fun k => decide (k.openTime = t))).take 1
  | seen, [] => by
    by_cases h : t ∈ seen <;> simp [dedupKlinesGo, h]
  | seen, k :: rest => by
    rw [dedupKlinesGo]
    by_cases hk : k.openTime ∈ seen
    · rw [if_pos hk, dedupKlinesGo_filter t seen rest]
      by_cases ht : k.openTime = t
      · subst ht
        simp [hk, List.filter_cons]
      · simp [List.filter_cons, ht]
    · rw [if_neg hk]
      by_cases ht : k.openTime = t
      · subst ht
        simp [List.filter_cons,
          dedupKlinesGo_filter k.openTime (k.openTime :: seen) rest, hk,
          List.mem_cons_self]
      · have hmm : (t ∈ k.openTime :: seen) ↔ t ∈ seen := by
          simp only [List.mem_cons]
          constructor
          · rintro (h | h)
            · exact absurd h.symm ht
            · exact h
          · exact fun h => Or.inr h
        simp [List.filter_cons, ht,
          dedupKlinesGo_filter t (k.openTime :: seen) rest, hmm]

/-- Helper: the dedup loop yields pairwise-distinct open times, none of which
was previously seen. -/
theorem dedupKlinesGo_nodup :
    ∀ (seen : List Int) (l : List RawKline),
      ((dedupKlinesGo seen l).map (fun k => k.openTime)).Nodup ∧
      ∀ x ∈ (dedupKlinesGo seen l).map (fun k => k.openTime), x ∉ seen
  | seen, [] => by simp [dedupKlinesGo]
  | seen, k :: rest => by
    by_cases hk : k.openTime ∈ seen
    · rw [dedupKlinesGo, if_pos hk]
      exact dedupKlinesGo_nodup seen rest
    · rw [dedupKlinesGo, if_neg hk]
      obtain ⟨hnd, hns⟩ := dedupKlinesGo_nodup (k.openTime :: seen) rest
      refine ⟨?_, ?_⟩
      · simp only [List.map_cons, List.nodup_cons]
        refine ⟨?_, hnd⟩
        intro hmem
        exact (hns _ hmem) (List.mem_cons_self _ _)
      · intro x hx
        simp only [List.map_cons, List.mem_cons] at hx
        rcases hx with hx | hx
        · subst hx
          exact hk
        · intro hxs
          exact (hns x hx) (List.mem_cons_of_mem _ hxs)

/-- Helper: the output of `dedupSortKlines` has strictly increasing open
times. -/
theorem dedupSortKlines_strict (out : List RawKline) :
    List.Pairwise (fun a b => a.openTime < b.openTime) (dedupSortKlines out) := by
  have htrans : ∀ (a b c : RawKline), decide (a.openTime ≤ b.openTime) = true →
      decide (b.openTime ≤ c.openTime) = true →
      decide (a.openTime ≤ c.openTime) = true := by
    intro a b c h1 h2
    simp only [decide_eq_true_eq] at h1 h2 ⊢
    omega
  have htotal : ∀ (a b : RawKline), (decide (a.openTime ≤ b.openTime) ||
      decide (b.openTime ≤ a.openTime)) = true := by
    intro a b
    simp only [Bool.or_eq_true, decide_eq_true_eq]
    omega
  have hsorted := List.sorted_mergeSort htrans htotal (dedupKlinesGo [] out)
  have hle : List.Pairwise (fun a b => a.openTime ≤ b.openTime) (dedupSortKlines out) := by
    refine List.Pairwise.imp ?_ hsorted
    intro a b h
    simpa using h
  have hperm : List.Perm (dedupSortKlines out) (dedupKlinesGo [] out) :=
    List.mergeSort_perm (dedupKlinesGo [] out) _
  have hnd : ((dedupSortKlines out).map (fun k => k.openTime)).Nodup :=
    (List.Perm.nodup_iff (List.Perm.map _ hperm)).mpr (dedupKlinesGo_nodup [] out).1
  have hne : List.Pairwise (fun a b => a.openTime ≠ b.openTime) (dedupSortKlines out) :=
    List.pairwise_map.mp hnd
  exact (hle.and hne).imp (fun h => lt_of_le_of_ne h.1 h.2)

/-- Unfolding lemma: the chunk loop when the cursor has reached the end. -/
theorem fetchAllKlinesLoop_done (net : Net) (symbol interval : String)
    (intervalMs maxSpan endTime : Int) (fuel : Nat) (t : Int)
    (out : List RawKline) (h : ¬t < endTime) :
    fetchAllKlinesLoop net symbol interval intervalMs maxSpan endTime fuel t out =
      some (.ok (dedupSortKlines out)) := by
  rw [fetchAllKlinesLoop.eq_def]
  simp [h]

/-- Unfolding lemma: the chunk loop out of fuel. -/
theorem fetchAllKlinesLoop_zero (net : Net) (symbol interval : String)
    (intervalMs maxSpan endTime : Int) (t : Int)
    (out : List RawKline) (h : t < endTime) :
    fetchAllKlinesLoop net symbol interval intervalMs maxSpan endTime 0 t out = none := by
  rw [fetchAllKlinesLoop.eq_def]
  simp [h]

/-- Unfolding lemma: a failed chunk aborts the loop with that error. -/
theorem fetchAllKlinesLoop_err (net : Net) (symbol interval : String)
    (intervalMs maxSpan endTime : Int) (fuel : Nat) (t : Int)
    (out : List RawKline) (e : String) (h : t < endTime)
    (hf : fetchKlinesAnyBase net ⟨symbol, interval, t, min endTime (t + maxSpan)⟩ =
      .error e) :
    fetchAllKlinesLoop net symbol interval intervalMs maxSpan endTime (fuel + 1) t out =
      some (.error e) := by
  rw [fetchAllKlinesLoop.eq_def]
  simp [h, hf]

/-- Unfolding lemma: a successful chunk appends its rows and advances the
cursor. -/
theorem fetchAllKlinesLoop_ok (net : Net) (symbol interval : String)
    (intervalMs maxSpan endTime : Int) (fuel : Nat) (t : Int)
    (out kl : List RawKline) (h : t < endTime)
    (hf : fetchKlinesAnyBase net ⟨symbol, interval, t, min endTime (t + maxSpan)⟩ =
      .ok kl) :
    fetchAllKlinesLoop net symbol interval intervalMs maxSpan endTime (fuel + 1) t out =
      fetchAllKlinesLoop net symbol interval intervalMs maxSpan endTime fuel
        (match kl.getLast? with
          | some k => k.openTime + intervalMs
          | none => min endTime (t + maxSpan)) (out ++ kl) := by
  conv_lhs => rw [fetchAllKlinesLoop.eq_def]
  simp [h, hf]

/-- Helper: every successful result of the chunk loop is of the form
`dedupSortKlines raw` for some list `raw` of fetched rows. -/
theorem fetchAllKlinesLoop_ok_form (net : Net) (symbol interval : String)
    (intervalMs maxSpan endTime : Int) :
    ∀ (fuel : Nat) (t : Int) (out v : List RawKline),
      fetchAllKlinesLoop net symbol interval intervalMs maxSpan endTime fuel t out =
        some (.ok v) →
      ∃ raw, v = dedupSortKlines raw
  | fuel, t, out, v => by
    intro h
    by_cases ht : t < endTime
    · match fuel with
      | 0 =>
        rw [fetchAllKlinesLoop_zero net symbol interval intervalMs maxSpan endTime t out ht] at h
        exact absurd h (by simp)
      | fuel' + 1 =>
        rcases hfetch : fetchKlinesAnyBase net
            ⟨symbol, interval, t, min endTime (t + maxSpan)⟩ with e | kl
        · rw [fetchAllKlinesLoop_err net symbol interval intervalMs maxSpan endTime fuel'
            t out e ht hfetch] at h
          exact absurd h (by simp)
        · rw [fetchAllKlinesLoop_ok net symbol interval intervalMs maxSpan endTime fuel'
            t out kl ht hfetch] at h
          exact fetchAllKlinesLoop_ok_form net symbol interval intervalMs maxSpan endTime
            fuel' _ (out ++ kl) v h
    · rw [fetchAllKlinesLoop_done net symbol interval intervalMs maxSpan endTime fuel t out ht] at h
      simp only [Option.some.injEq, Except.ok.injEq] at h
      exact ⟨out, h.symm⟩

/-- Claim C9: every successful result of `fetchAllKlines` is exactly the
concatenated chunk rows deduplicated by open time (first occurrence wins —
third conjunct) and sorted ascending, and its open times are strictly
ascending and hence duplicate-free. -/
theorem c9_theorem (net : Net) (symbol interval : String)
    (startTime endTime : Int) (v : List RawKline)
    (h : fetchAllKlines net symbol interval startTime endTime = some (.ok v)) :
    (∃ raw, v = dedupSortKlines raw) ∧
    List.Pairwise (fun a b => a.openTime < b.openTime) v ∧
    (∀ (raw : List RawKline) (t : Int),
      (dedupKlinesGo [] raw).filter (fun k => decide (k.openTime = t)) =
        (raw.filter (fun k => decide (k.openTime = t))).take 1) := by
  rw [fetchAllKlines] at h
  obtain ⟨raw, hraw⟩ := fetchAllKlinesLoop_ok_form net symbol interval
    (intervalMsOf interval) (intervalMsOf interval * 1000) endTime
    (endTime - startTime).toNat startTime [] v h
  refine ⟨⟨raw, hraw⟩, ?_, ?_⟩
  · rw [hraw]
    exact dedupSortKlines_strict raw
  · intro raw' t
    simpa using dedupKlinesGo_filter t [] raw'

/-- Claim C9, witness: a run against an oracle that always returns an empty
chunk succeeds with the empty (trivially strictly sorted) series. -/
theorem c9_witness :
    (∃ raw, ([] : List RawKline) = dedupSortKlines raw) ∧
    List.Pairwise (fun a b => a.openTime < b.openTime) ([] : List RawKline) := by
  have h : fetchAllKlines (fun _ _ => .ok []) "BTCUSDT" "5m" 0 1 = some (.ok []) := by
    simp [fetchAllKlines, fetchAllKlinesLoop, fetchKlinesAnyBase, tryBases, BINANCE_BASES,
      dedupSortKlines, dedupKlinesGo, intervalMsOf, INTERVALS]
  exact ⟨(c9_theorem _ _ _ _ _ _ h).1, (c9_theorem _ _ _ _ _ _ h).2.1⟩

/-- Helper: every granularity the lookup can return is positive (the table
entries are 60s, 300s, 900s in milliseconds; the fallback is 300000). -/
theorem intervalMsOf_pos (s : String) : 0 < intervalMsOf s := by
  rw [intervalMsOf]
  rcases h : INTERVALS.find? (fun x => x.label = s) with _ | x
  · rw [h]
    norm_num
  · rw [h]
    have hx := List.mem_of_find?_eq_some h
    simp only [INTERVALS, List.mem_cons, List.not_mem_nil, or_false] at hx
    rcases hx with h1 | h1 | h1 <;> subst h1 <;> norm_num

/-- Helper: under the source's cursor-advance rule, the cursor strictly
advances on every chunk: to `last open time + interval` on a non-empty
response whose last open time is at least the chunk start, and to the chunk
end `min endTime (t + maxSpan)` on an empty response. -/
theorem fetchCursor_advances (intervalMs maxSpan endTime t : Int)
    (kl : List RawKline) (hI : 0 < intervalMs) (hS : intervalMs ≤ maxSpan)
    (ht : t < endTime)
    (hlast : ∀ k, kl.getLast? = some k → t ≤ k.openTime) :
    t < (match kl.getLast? with
      | some k => k.openTime + intervalMs
      | none => min endTime (t + maxSpan)) := by
  rcases hk : kl.getLast? with _ | k
  · simp only
    omega
  · have := hlast k hk
    simp only
    omega

/-- Helper: fuel `(endTime - t).toNat` always suffices for the chunk loop,
because the cursor strictly advances by at least one millisecond per
iteration until it reaches or passes `endTime`. -/
theorem fetchAllKlinesLoop_isSome (net : Net) (symbol interval : String)
    (intervalMs maxSpan endTime : Int) (hI : 0 < intervalMs)
    (hS : intervalMs ≤ maxSpan)
    (hnet : ∀ (req : FetchReq) (kl : List RawKline),
      fetchKlinesAnyBase net req = .ok kl →
      ∀ k, kl.getLast? = some k → req.startTime ≤ k.openTime) :
    ∀ (fuel : Nat) (t : Int) (out : List RawKline),
      (endTime - t).toNat ≤ fuel →
      (fetchAllKlinesLoop net symbol interval intervalMs maxSpan endTime fuel t out).isSome
  | fuel, t, out => by
    intro hfuel
    by_cases ht : t < endTime
    · match fuel, hfuel with
      | 0, hfuel =>
        rw [Nat.le_zero, Int.toNat_eq_zero] at hfuel
        omega
      | fuel' + 1, hfuel =>
        rcases hfetch : fetchKlinesAnyBase net
            ⟨symbol, interval, t, min endTime (t + maxSpan)⟩ with e | kl
        · rw [fetchAllKlinesLoop_err net symbol interval intervalMs maxSpan endTime fuel'
            t out e ht hfetch]
          simp
        · rw [fetchAllKlinesLoop_ok net symbol interval intervalMs maxSpan endTime fuel'
            t out kl ht hfetch]
          have hadv := fetchCursor_advances intervalMs maxSpan endTime t kl hI hS ht
            (fun k hk => hnet _ kl hfetch k hk)
          revert hadv
          generalize (match kl.getLast? with
            | some k => k.openTime + intervalMs
            | none => min endTime (t + maxSpan)) = t'
          intro hadv
          apply fetchAllKlinesLoop_isSome net symbol interval intervalMs maxSpan endTime
            hI hS hnet fuel' t' (out ++ kl)
          omega
    · rw [fetchAllKlinesLoop_done net symbol interval intervalMs maxSpan endTime fuel t out ht]
      simp

/-- Claim C6: for every `startTime < endTime`, under the precondition that
the last row of every non-empty response has open time at least the requested
chunk start, the chunk loop of `fetchAllKlines` terminates within fuel
`(endTime - startTime).toNat` (first conjunct), because every iteration
strictly advances the cursor — to `last open time + interval` on a non-empty
response and to the requested chunk end on an empty one (second conjunct). -/
theorem c6_theorem (net : Net) (symbol interval : String)
    (startTime endTime : Int) (hrange : startTime < endTime)
    (hnet : ∀ (req : FetchReq) (kl : List RawKline),
      fetchKlinesAnyBase net req = .ok kl →
      ∀ k, kl.getLast? = some k → req.startTime ≤ k.openTime) :
    (fetchAllKlines net symbol interval startTime endTime).isSome ∧
    (∀ (t : Int) (kl : List RawKline), t < endTime →
      (∀ k, kl.getLast? = some k → t ≤ k.openTime) →
      t < (match kl.getLast? with
        | some k => k.openTime + intervalMsOf interval
        | none => min endTime (t + intervalMsOf interval * 1000))) := by
  have hI := intervalMsOf_pos interval
  have hS : intervalMsOf interval ≤ intervalMsOf interval * 1000 := by omega
  constructor
  · simp only [fetchAllKlines]
    exact fetchAllKlinesLoop_isSome net symbol interval _ _ endTime hI hS hnet
      _ startTime [] (le_refl _)
  · intro t kl ht hlast
    exact fetchCursor_advances _ _ endTime t kl hI hS ht hlast

/-- Claim C6, witness: the loop terminates on a concrete range against an
oracle that always answers with an empty chunk. -/
theorem c6_witness :
    (fetchAllKlines (fun _ _ => .ok []) "BTCUSDT" "5m" 0 1000).isSome := by
  refine (c6_theorem (fun _ _ => .ok []) "BTCUSDT" "5m" 0 1000 (by norm_num) ?_).1
  intro req kl hkl k hk
  simp [fetchKlinesAnyBase, tryBases, BINANCE_BASES] at hkl
  subst hkl
  simp at hk

/-- Claim C5: each chunk request tries the primary base first (first
conjunct), retries exactly once against the fallback on any failure (second
conjunct), and surfaces an error only when both fail (third conjunct); a
chunk whose two attempts both fail aborts the whole symbol fetch with that
error (fourth conjunct); and a failed fetch phase makes the whole hindsight
run fail with a surfaced message while `hData` stays cleared and the closed
trades — hence the behavioral summary — are unchanged (fifth conjunct). -/
theorem c5_theorem :
    (∀ (net : Net) (req : FetchReq) (d : List RawKline),
      net "https://api.binance.com" req = .ok d →
      fetchKlinesAnyBase net req = .ok d) ∧
    (∀ (net : Net) (req : FetchReq) (e : String) (d : List RawKline),
      net "https://api.binance.com" req = .error e →
      net "https://data-api.binance.vision" req = .ok d →
      fetchKlinesAnyBase net req = .ok d) ∧
    (∀ (net : Net) (req : FetchReq) (e1 e2 : String),
      net "https://api.binance.com" req = .error e1 →
      net "https://data-api.binance.vision" req = .error e2 →
      fetchKlinesAnyBase net req = .error e2) ∧
    (∀ (net : Net) (symbol interval : String) (s e : Int) (err : String),
      s < e →
      fetchKlinesAnyBase net ⟨symbol, interval, s,
        min e (s + intervalMsOf interval * 1000)⟩ = .error err →
      fetchAllKlines net symbol interval s e = some (.error err)) ∧
    (∀ (net : Net) (interval : String) (lookaheadHours : Int) (realismPct : ℚ)
        (st : AppState) (e : String),
      st.closedTrades ≠ [] →
      fetchPhase net interval (lookaheadHours * 3600000) (intervalMsOf interval)
        st.closedTrades (symbolKeysGo [] st.closedTrades) = some (.error e) →
      runHindsight net interval lookaheadHours realismPct st =
        some { st with error := "Hindsight failed: " ++ e, hStatus := "", hData := none } ∧
      ∀ st', runHindsight net interval lookaheadHours realismPct st = some st' →
        st'.closedTrades = st.closedTrades ∧ st'.hData = none ∧
        summarizeClosedTrades st'.closedTrades = summarizeClosedTrades st.closedTrades) := by
  refine ⟨?_, ?_, ?_, ?_, ?_⟩
  · intro net req d h
    simp [fetchKlinesAnyBase, tryBases, BINANCE_BASES, h]
  · intro net req e d h1 h2
    simp [fetchKlinesAnyBase, tryBases, BINANCE_BASES, h1, h2]
  · intro net req e1 e2 h1 h2
    simp [fetchKlinesAnyBase, tryBases, BINANCE_BASES, h1, h2]
  · intro net symbol interval s e err hse herr
    obtain ⟨f', hf⟩ : ∃ f', (e - s).toNat = f' + 1 := ⟨(e - s).toNat - 1, by omega⟩
    simp only [fetchAllKlines]
    rw [hf]
    exact fetchAllKlinesLoop_err net symbol interval _ _ e f' s [] err hse herr
  · intro net interval lookaheadHours realismPct st e hne hfp
    have hlen : ¬(st.closedTrades.length = 0) := by
      simpa [List.length_eq_zero] using hne
    have hrun : runHindsight net interval lookaheadHours realismPct st =
        some { st with error := "Hindsight failed: " ++ e, hStatus := "", hData := none } := by
      simp [runHindsight, hlen, hfp]
    refine ⟨hrun, ?_⟩
    intro st' hst'
    rw [hrun] at hst'
    simp only [Option.some.injEq] at hst'
    subst hst'
    exact ⟨rfl, rfl, rfl⟩

/-- Claim C5, witness: against an oracle on which both bases always fail
with `HTTP 451`, a run over one closed trade fails with the surfaced message,
keeps `hData` empty and leaves the closed trades untouched. -/
theorem c5_witness :
    runHindsight (fun _ _ => .error "HTTP 451") "5m" 4 80
        ⟨"", "", none,
          [⟨"BloFin", "BTCUSDT", "LONG", some 100, some 110, some 1, some 1, none,
            some 10, 0, none⟩]⟩ =
      some ⟨"Hindsight failed: HTTP 451", "", none,
        [⟨"BloFin", "BTCUSDT", "LONG", some 100, some 110, some 1, some 1, none,
          some 10, 0, none⟩]⟩ := by
  have hfp : fetchPhase (fun _ _ => .error "HTTP 451") "5m" ((4 : Int) * 3600000)
      (intervalMsOf "5m")
      [⟨"BloFin", "BTCUSDT", "LONG", some 100, some 110, some 1, some 1, none,
        some 10, 0, none⟩]
      (symbolKeysGo []
        [⟨"BloFin", "BTCUSDT", "LONG", some 100, some 110, some 1, some 1, none,
          some 10, 0, none⟩]) = some (.error "HTTP 451") := by
    simp [fetchPhase, symbolKeysGo, tradesForSymbol, normalizeToBinanceSymbol, trimChars,
      fetchAllKlines, fetchAllKlinesLoop, fetchKlinesAnyBase, tryBases, BINANCE_BASES,
      intervalMsOf, INTERVALS]
  exact (c5_theorem.2.2.2.2 (fun _ _ => .error "HTTP 451") "5m" 4 80
    ⟨"", "", none,
      [⟨"BloFin", "BTCUSDT", "LONG", some 100, some 110, some 1, some 1, none,
        some 10, 0, none⟩]⟩ "HTTP 451" (by simp) hfp).1

/-! ## The hindsight window search -/

/-- Specification-side definition, following the spec's words for the SHORT
case ("the best value is the minimum low observed" over in-window candles),
with the window endpoint amended to be inclusive, `[startMs, endMs]`, as the
code implements it. -/
def specBestShort (series : List Candle) (startMs endMs : Int) : Option ℚ :=
  ((series.filter (fun c => decide (startMs ≤ c.t ∧ c.t ≤ endMs))).map
    (fun c => c.low)).min?

/-- Specification-side definition, following the spec's words for the LONG
case ("the best value is the maximum high observed"), window amended to be
inclusive. -/
def specBestLong (series : List Candle) (startMs endMs : Int) : Option ℚ :=
  ((series.filter (fun c => decide (startMs ≤ c.t ∧ c.t ≤ endMs))).map
    (fun c => c.high)).max?

/-- Helper: the SHORT scan with a seeded accumulator folds `min` over the
lows of the in-window candles of a time-sorted series. -/
theorem bestLoop_short_acc (startMs endMs : Int) :
    ∀ (l : List Candle), List.Pairwise (fun a b => a.t ≤ b.t) l → ∀ (b : ℚ),
      bestLoop "SHORT" startMs endMs l (some b) =
        some (List.foldl min b
          ((l.filter (fun c => decide (startMs ≤ c.t ∧ c.t ≤ endMs))).map
            (fun c => c.low)))
  | [], _, b => by simp [bestLoop]
  | c :: rest, hs, b => by
    rw [bestLoop]
    by_cases h1 : c.t < startMs
    · have hpred : ¬((fun c => decide (startMs ≤ c.t ∧ c.t ≤ endMs)) c = true) := by
        simp
        omega
      rw [if_pos h1, bestLoop_short_acc startMs endMs rest hs.of_cons b,
        @List.filter_cons_of_neg Candle (fun c => decide (startMs ≤ c.t ∧ c.t ≤ endMs)) c rest hpred]
    · rw [if_neg h1]
      by_cases h2 : endMs < c.t
      · have hnil : rest.filter (fun c => decide (startMs ≤ c.t ∧ c.t ≤ endMs)) = [] := by
          rw [List.filter_eq_nil_iff]
          intro a ha
          have := List.rel_of_pairwise_cons hs ha
          simp
          omega
        have hpred : ¬((fun c => decide (startMs ≤ c.t ∧ c.t ≤ endMs)) c = true) := by
          simp
          omega
        rw [if_pos h2, @List.filter_cons_of_neg Candle (fun c => decide (startMs ≤ c.t ∧ c.t ≤ endMs)) c rest hpred, hnil]
        simp
      · have hpred : (fun c => decide (startMs ≤ c.t ∧ c.t ≤ endMs)) c = true := by
          simp
          omega
        rw [if_neg h2, @List.filter_cons_of_pos Candle (fun c => decide (startMs ≤ c.t ∧ c.t ≤ endMs)) c rest hpred]
        simp only [List.map_cons, List.foldl_cons]
        show bestLoop "SHORT" startMs endMs rest (some (min b c.low)) = _
        rw [bestLoop_short_acc startMs endMs rest hs.of_cons (min b c.low)]

/-- Helper: on a time-sorted series the SHORT scan computes the
minimum low among in-window
candles (`none` when there is none). -/
theorem bestLoop_short_none (startMs endMs : Int) :
    ∀ (l : List Candle), List.Pairwise (fun a b => a.t ≤ b.t) l →
      bestLoop "SHORT" startMs endMs l none = specBestShort l startMs endMs
  | [], _ => by simp [bestLoop, specBestShort]
  | c :: rest, hs => by
    rw [bestLoop, specBestShort]
    by_cases h1 : c.t < startMs
    · have hpred : ¬((fun c => decide (startMs ≤ c.t ∧ c.t ≤ endMs)) c = true) := by
        simp
        omega
      rw [if_pos h1, bestLoop_short_none startMs endMs rest hs.of_cons,
        specBestShort, @List.filter_cons_of_neg Candle (fun c => decide (startMs ≤ c.t ∧ c.t ≤ endMs)) c rest hpred]
    · rw [if_neg h1]
      by_cases h2 : endMs < c.t
      · have hnil : rest.filter (fun c => decide (startMs ≤ c.t ∧ c.t ≤ endMs)) = [] := by
          rw [List.filter_eq_nil_iff]
          intro a ha
          have := List.rel_of_pairwise_cons hs ha
          simp
          omega
        have hpred : ¬((fun c => decide (startMs ≤ c.t ∧ c.t ≤ endMs)) c = true) := by
          simp
          omega
        rw [if_pos h2, @List.filter_cons_of_neg Candle (fun c => decide (startMs ≤ c.t ∧ c.t ≤ endMs)) c rest hpred, hnil]
        simp
      · have hpred : (fun c => decide (startMs ≤ c.t ∧ c.t ≤ endMs)) c = true := by
          simp
          omega
        rw [if_neg h2, @List.filter_cons_of_pos Candle (fun c => decide (startMs ≤ c.t ∧ c.t ≤ endMs)) c rest hpred]
        simp only [List.map_cons, List.min?_cons']
        show bestLoop "SHORT" startMs endMs rest (some c.low) = _
        rw [bestLoop_short_acc startMs endMs rest hs.of_cons c.low]

/-- Helper: the LONG scan with a seeded accumulator folds `max` over the
highs of the in-window candles of a time-sorted series. -/
theorem bestLoop_long_acc (startMs endMs : Int) :
    ∀ (l : List Candle), List.Pairwise (fun a b => a.t ≤ b.t) l → ∀ (b : ℚ),
      bestLoop "LONG" startMs endMs l (some b) =
        some (List.foldl max b
          ((l.filter (fun c => decide (startMs ≤ c.t ∧ c.t ≤ endMs))).map
            (fun c => c.high)))
  | [], _, b => by simp [bestLoop]
  | c :: rest, hs, b => by
    rw [bestLoop]
    by_cases h1 : c.t < startMs
    · have hpred : ¬((fun c => decide (startMs ≤ c.t ∧ c.t ≤ endMs)) c = true) := by
        simp
        omega
      rw [if_pos h1, bestLoop_long_acc startMs endMs rest hs.of_cons b,
        @List.filter_cons_of_neg Candle (fun c => decide (startMs ≤ c.t ∧ c.t ≤ endMs)) c rest hpred]
    · rw [if_neg h1]
      by_cases h2 : endMs < c.t
      · have hnil : rest.filter (fun c => decide (startMs ≤ c.t ∧ c.t ≤ endMs)) = [] := by
          rw [List.filter_eq_nil_iff]
          intro a ha
          have := List.rel_of_pairwise_cons hs ha
          simp
          omega
        have hpred : ¬((fun c => decide (startMs ≤ c.t ∧ c.t ≤ endMs)) c = true) := by
          simp
          omega
        rw [if_pos h2, @List.filter_cons_of_neg Candle (fun c => decide (startMs ≤ c.t ∧ c.t ≤ endMs)) c rest hpred, hnil]
        simp
      · have hpred : (fun c => decide (startMs ≤ c.t ∧ c.t ≤ endMs)) c = true := by
          simp
          omega
        rw [if_neg h2, @List.filter_cons_of_pos Candle (fun c => decide (startMs ≤ c.t ∧ c.t ≤ endMs)) c rest hpred]
        simp only [List.map_cons, List.foldl_cons]
        show bestLoop "LONG" startMs endMs rest (some (max b c.high)) = _
        rw [bestLoop_long_acc startMs endMs rest hs.of_cons (max b c.high)]

/-- Helper: on a time-sorted series the LONG scan computes the
maximum high among in-window
candles (`none` when there is none). -/
theorem bestLoop_long_none (startMs endMs : Int) :
    ∀ (l : List Candle), List.Pairwise (fun a b => a.t ≤ b.t) l →
      bestLoop "LONG" startMs endMs l none = specBestLong l startMs endMs
  | [], _ => by simp [bestLoop, specBestLong]
  | c :: rest, hs => by
    rw [bestLoop, specBestLong]
    by_cases h1 : c.t < startMs
    · have hpred : ¬((fun c => decide (startMs ≤ c.t ∧ c.t ≤ endMs)) c = true) := by
        simp
        omega
      rw [if_pos h1, bestLoop_long_none startMs endMs rest hs.of_cons,
        specBestLong, @List.filter_cons_of_neg Candle (fun c => decide (startMs ≤ c.t ∧ c.t ≤ endMs)) c rest hpred]
    · rw [if_neg h1]
      by_cases h2 : endMs < c.t
      · have hnil : rest.filter (fun c => decide (startMs ≤ c.t ∧ c.t ≤ endMs)) = [] := by
          rw [List.filter_eq_nil_iff]
          intro a ha
          have := List.rel_of_pairwise_cons hs ha
          simp
          omega
        have hpred : ¬((fun c => decide (startMs ≤ c.t ∧ c.t ≤ endMs)) c = true) := by
          simp
          omega
        rw [if_pos h2, @List.filter_cons_of_neg Candle (fun c => decide (startMs ≤ c.t ∧ c.t ≤ endMs)) c rest hpred, hnil]
        simp
      · have hpred : (fun c => decide (startMs ≤ c.t ∧ c.t ≤ endMs)) c = true := by
          simp
          omega
        rw [if_neg h2, @List.filter_cons_of_pos Candle (fun c => decide (startMs ≤ c.t ∧ c.t ≤ endMs)) c rest hpred]
        simp only [List.map_cons, List.max?_cons']
        show bestLoop "LONG" startMs endMs rest (some c.high) = _
        rw [bestLoop_long_acc startMs endMs rest hs.of_cons c.high]

/-- Claim C3, counterexample: the window is CLOSED, not half-open: a candle
whose open time is exactly `closeTime + lookahead` (here `0 + 100`) is
outside the claimed half-open window `[0, 100)`, yet `bestPriceInWindow`
includes it and returns its high instead of `null`. -/
theorem c3_counterexample :
    bestPriceInWindow [⟨100, 5, 4⟩] 0 100 "LONG" = some 5 ∧
    ∀ c ∈ [(⟨100, 5, 4⟩ : Candle)], ¬((0 : Int) ≤ c.t ∧ c.t < 0 + 100) := by
  constructor
  · simp [bestPriceInWindow, bestLoop]
  · intro c hc
    simp only [List.mem_singleton] at hc
    subst hc
    simp

/-- Claim C3 (amended): on a time-sorted series, `bestPriceInWindow`
considers exactly the candles whose open time lies in the CLOSED window
`[startMs, endMs]` (for hindsight: `[closeTime, closeTime + lookahead]`),
returning the minimum low for SHORT, the maximum high for LONG, and `none`
exactly when no candle's open time lies in the window; `runHindsight`'s row
computation passes precisely these window bounds. -/
theorem c3_theorem (series : List Candle) (startMs endMs : Int)
    (hsorted : List.Pairwise (fun a b => a.t ≤ b.t) series) :
    bestPriceInWindow series startMs endMs "SHORT" = specBestShort series startMs endMs ∧
    bestPriceInWindow series startMs endMs "LONG" = specBestLong series startMs endMs ∧
    (bestPriceInWindow series startMs endMs "SHORT" = none ↔
      ∀ c ∈ series, ¬(startMs ≤ c.t ∧ c.t ≤ endMs)) ∧
    (bestPriceInWindow series startMs endMs "LONG" = none ↔
      ∀ c ∈ series, ¬(startMs ≤ c.t ∧ c.t ≤ endMs)) ∧
    (∀ (seriesOf : String → Option (List Candle)) (lookaheadMs : Int) (realism : ℚ)
        (t : ClosedTrade) (s' : List Candle),
      seriesOf (normalizeToBinanceSymbol t.symbol) = some s' →
      bestPriceInWindow s' t.closeTime (t.closeTime + lookaheadMs) t.direction = none →
      (hindsightRow seriesOf lookaheadMs realism t).bestExit = none) := by
  have hshort := bestLoop_short_none startMs endMs series hsorted
  have hlong := bestLoop_long_none startMs endMs series hsorted
  refine ⟨hshort, hlong, ?_, ?_, ?_⟩
  · rw [bestPriceInWindow, hshort, specBestShort]
    simp
  · rw [bestPriceInWindow, hlong, specBestLong]
    simp
  · intro seriesOf lookaheadMs realism t s' hser hbest
    simp [hindsightRow, hser, hbest]

/-- Claim C3, witness: the amended theorem applied to a concrete sorted
two-candle series and window `[0, 100]`. -/
theorem c3_witness :
    bestPriceInWindow [⟨0, 10, 1⟩, ⟨50, 20, 2⟩] 0 100 "SHORT" =
      specBestShort [⟨0, 10, 1⟩, ⟨50, 20, 2⟩] 0 100 ∧
    bestPriceInWindow [⟨0, 10, 1⟩, ⟨50, 20, 2⟩] 0 100 "LONG" =
      specBestLong [⟨0, 10, 1⟩, ⟨50, 20, 2⟩] 0 100 := by
  have h := c3_theorem [⟨0, 10, 1⟩, ⟨50, 20, 2⟩] 0 100 (by decide)
  exact ⟨h.1, h.2.1⟩

/-- Claim C4: when the lookahead window produced a raw best `raw` and the
trade has a finite exit price `e`, the damped best exit is exactly
`e + (raw - e) * realism` with `realism = clamp(realismPct/100, 0, 1) ∈ [0,1]`;
in particular slider 0 gives `bestExit = e` and slider 100 gives
`bestExit = raw`. -/
theorem c4_theorem (seriesOf : String → Option (List Candle)) (lookaheadMs : Int)
    (realismPct : ℚ) (t : ClosedTrade) (series : List Candle) (raw e : ℚ)
    (hser : seriesOf (normalizeToBinanceSymbol t.symbol) = some series)
    (hraw : bestPriceInWindow series t.closeTime (t.closeTime + lookaheadMs)
      t.direction = some raw)
    (hexit : t.exitPrice = some e) :
    (0 : ℚ) ≤ clamp (realismPct / 100) 0 1 ∧ clamp (realismPct / 100) 0 1 ≤ 1 ∧
    (hindsightRow seriesOf lookaheadMs (clamp (realismPct / 100) 0 1) t).bestExit =
      some (e + (raw - e) * clamp (realismPct / 100) 0 1) ∧
    (realismPct = 0 →
      (hindsightRow seriesOf lookaheadMs (clamp (realismPct / 100) 0 1) t).bestExit =
        some e) ∧
    (realismPct = 100 →
      (hindsightRow seriesOf lookaheadMs (clamp (realismPct / 100) 0 1) t).bestExit =
        some raw) := by
  have hbe : ∀ r : ℚ, (hindsightRow seriesOf lookaheadMs r t).bestExit =
      some (e + (raw - e) * r) := by
    intro r
    simp [hindsightRow, hser, hraw, hexit]
  refine ⟨le_max_left _ _, max_le (by norm_num) (min_le_left _ _), hbe _, ?_, ?_⟩
  · intro h0
    subst h0
    rw [hbe]
    have : clamp ((0 : ℚ) / 100) 0 1 = 0 := by
      rw [clamp]
      norm_num
    rw [this]
    norm_num
  · intro h100
    subst h100
    rw [hbe]
    have : clamp ((100 : ℚ) / 100) 0 1 = 1 := by
      rw [clamp]
      norm_num
    rw [this]
    norm_num

/-- Claim C4, witness: slider 50 on a LONG trade with exit 30 and raw window
best 50 gives `bestExit = 30 + (50 - 30) * 0.5 = 40`. -/
theorem c4_witness :
    (hindsightRow (fun _ => some [⟨5, 50, 40⟩]) 100 (clamp ((50 : ℚ) / 100) 0 1)
        ⟨"BloFin", "BTCUSDT", "LONG", some 20, some 30, some 1, some 10, none,
          some 10, 0, none⟩).bestExit = some 40 := by
  have h := c4_theorem (fun _ => some [⟨5, 50, 40⟩]) 100 50
      ⟨"BloFin", "BTCUSDT", "LONG", some 20, some 30, some 1, some 10, none,
        some 10, 0, none⟩ [⟨5, 50, 40⟩] 50 30 rfl
      (by simp [bestPriceInWindow, bestLoop]) rfl
  rw [h.2.2.1]
  have hc : clamp ((50 : ℚ) / 100) 0 1 = 1 / 2 := by
    rw [clamp]
    norm_num
  rw [hc]
  norm_num

/-! ## Stable sorting and FIFO order of the lot matcher -/

/-- Helper: the fill comparator is transitive (as a boolean relation). -/
theorem fillLe_trans : ∀ (a b c : Fill), decide (a.time ≤ b.time) = true →
    decide (b.time ≤ c.time) = true → decide (a.time ≤ c.time) = true := by
  intro a b c h1 h2
  simp only [decide_eq_true_eq] at h1 h2 ⊢
  omega

/-- Helper: the fill comparator is total (as a boolean relation). -/
theorem fillLe_total : ∀ (a b : Fill),
    (decide (a.time ≤ b.time) || decide (b.time ≤ a.time)) = true := by
  intro a b
  simp only [Bool.or_eq_true, decide_eq_true_eq]
  omega

/-- Helper: the sorted fill list is ascending by time. -/
theorem sortFillsByTime_sorted (fills : List Fill) :
    List.Pairwise (fun a b : Fill => a.time ≤ b.time) (sortFillsByTime fills) := by
  rw [sortFillsByTime]
  refine List.Pairwise.imp ?_ (List.sorted_mergeSort fillLe_trans fillLe_total fills)
  intro a b h
  simpa using h

/-- Helper: stability of the sort, in filter form — the fills carrying any
fixed time `T` appear in the output in exactly their input order. -/
theorem sortFillsByTime_stable (fills : List Fill) (T : Int) :
    (sortFillsByTime fills).filter (fun f => decide (f.time = T)) =
      fills.filter (fun f => decide (f.time = T)) := by
  have hA : (fills.filter (fun f => decide (f.time = T))).Pairwise
      (fun a b : Fill => decide (a.time ≤ b.time) = true) := by
    apply List.pairwise_of_forall_mem_list
    intro a ha b hb
    have ha' := (List.mem_filter.mp ha).2
    have hb' := (List.mem_filter.mp hb).2
    simp only [decide_eq_true_eq] at ha' hb' ⊢
    omega
  have hsub : List.Sublist (fills.filter (fun f => decide (f.time = T)))
      (List.mergeSort fills (fun a b => decide (a.time ≤ b.time))) :=
    List.sublist_mergeSort fillLe_trans fillLe_total hA (List.filter_sublist fills)
  have hself : (fills.filter (fun f => decide (f.time = T))).filter
      (fun f => decide (f.time = T)) = fills.filter (fun f => decide (f.time = T)) := by
    rw [List.filter_eq_self]
    intro a ha
    exact (List.mem_filter.mp ha).2
  have hsub2 : List.Sublist (fills.filter (fun f => decide (f.time = T)))
      ((List.mergeSort fills (fun a b => decide (a.time ≤ b.time))).filter
        (fun f => decide (f.time = T))) := by
    rw [← hself]
    exact List.Sublist.filter _ hsub
  have hlen : (fills.filter (fun f => decide (f.time = T))).length =
      ((List.mergeSort fills (fun a b => decide (a.time ≤ b.time))).filter
        (fun f => decide (f.time = T))).length :=
    (((List.mergeSort_perm fills _).filter _).length_eq).symm
  rw [sortFillsByTime]
  exact (hsub2.eq_of_length hlen).symm

/-- A queue obtained from `s` by consuming zero or more whole lots from the
front and then possibly reducing the quantity of the new front lot (keeping
its time and price). -/
def ConsumedFromFront (s s' : List Lot) : Prop :=
  ∃ n, s' = s.drop n ∨
    ∃ (lot : Lot) (rest : List Lot) (q : JSNum),
      s.drop n = lot :: rest ∧ s' = ⟨lot.time, lot.price, q⟩ :: rest

/-- Helper: the matching loop consumes open lots strictly from the head of
the queue: whatever remains is the original queue minus a front segment,
with at most the new front lot's quantity reduced. -/
theorem consumeLoop_front : ∀ (s : List Lot) (r eqt en : JSNum) (et : Option Int),
    ConsumedFromFront s (consumeLoop r eqt en et s).stack
  | [], r, eqt, en, et => by
    rw [consumeLoop_nil]
    exact ⟨0, Or.inl rfl⟩
  | lot :: rest, r, eqt, en, et => by
    by_cases hg : jsGt r (some 0) = true
    · by_cases hk : jsLe (jsSub lot.qty (jsMin r lot.qty)) (some lotEps) = true
      · rw [consumeLoop_shift _ _ _ _ _ _ hg hk]
        obtain ⟨n, h⟩ := consumeLoop_front rest (jsSub r (jsMin r lot.qty))
          (jsAdd eqt (jsMin r lot.qty)) (jsAdd en (jsMul (jsMin r lot.qty) lot.price))
          (some (match et with
            | none => lot.time
            | some t => if lot.time < t then lot.time else t))
        exact ⟨n + 1, by simpa [List.drop_succ_cons] using h⟩
      · rw [consumeLoop_keep _ _ _ _ _ _ hg (by simpa using hk),
          consumeLoop_stop _ _ _ _ _ _ (jsGt_after_keep r lot hg (by simpa using hk))]
        exact ⟨0, Or.inr ⟨lot, rest, jsSub lot.qty (jsMin r lot.qty), rfl, rfl⟩⟩
    · rw [consumeLoop_stop _ _ _ _ _ _ (by simpa using hg)]
      exact ⟨0, Or.inl rfl⟩

/-- Helper: front consumption preserves ascending time order of a queue. -/
theorem consumedFromFront_sorted (s s' : List Lot) (h : ConsumedFromFront s s')
    (hs : List.Pairwise (fun a b : Lot => a.time ≤ b.time) s) :
    List.Pairwise (fun a b : Lot => a.time ≤ b.time) s' := by
  obtain ⟨n, h | ⟨lot, rest, q, h1, h2⟩⟩ := h
  · subst h
    exact List.Pairwise.sublist (List.drop_sublist n s) hs
  · have hdrop : List.Pairwise (fun a b : Lot => a.time ≤ b.time) (lot :: rest) := by
      rw [← h1]
      exact List.Pairwise.sublist (List.drop_sublist n s) hs
    subst h2
    rw [List.pairwise_cons] at hdrop ⊢
    exact hdrop

/-- Helper: front consumption only keeps lots whose times already occurred
in the queue. -/
theorem consumedFromFront_times (s s' : List Lot) (h : ConsumedFromFront s s') :
    ∀ l' ∈ s', ∃ l ∈ s, l'.time = l.time := by
  obtain ⟨n, h | ⟨lot, rest, q, h1, h2⟩⟩ := h
  · subst h
    intro l' hl'
    exact ⟨l', (List.drop_sublist n s).mem hl', rfl⟩
  · subst h2
    intro l' hl'
    rcases List.mem_cons.mp hl' with hl' | hl'
    · subst hl'
      exact ⟨lot, (List.drop_sublist n s).mem (h1 ▸ List.mem_cons_self _ _), rfl⟩
    · exact ⟨l', (List.drop_sublist n s).mem (h1 ▸ List.mem_cons_of_mem _ hl'), rfl⟩

/-- Helper: once the running entry time is the minimum of the queue, it stays
unchanged through the rest of the loop. -/
theorem consumeLoop_entryTime_ge : ∀ (s : List Lot) (T : Int),
    (∀ l ∈ s, T ≤ l.time) → ∀ (r eqt en : JSNum),
    (consumeLoop r eqt en (some T) s).entryTime = some T
  | [], T, hT, r, eqt, en => by rw [consumeLoop_nil]
  | lot :: rest, T, hT, r, eqt, en => by
    have hTl : ¬lot.time < T := by
      have := hT lot (List.mem_cons_self _ _)
      omega
    by_cases hg : jsGt r (some 0) = true
    · by_cases hk : jsLe (jsSub lot.qty (jsMin r lot.qty)) (some lotEps) = true
      · rw [consumeLoop_shift _ _ _ _ _ _ hg hk]
        show (consumeLoop _ _ _ (some (if lot.time < T then lot.time else T)) rest).entryTime =
          some T
        rw [if_neg hTl]
        exact consumeLoop_entryTime_ge rest T
          (fun l hl => hT l (List.mem_cons_of_mem _ hl)) _ _ _
      · rw [consumeLoop_keep _ _ _ _ _ _ hg (by simpa using hk),
          consumeLoop_stop _ _ _ _ _ _ (jsGt_after_keep r lot hg (by simpa using hk))]
        show some (if lot.time < T then lot.time else T) = some T
        rw [if_neg hTl]
    · rw [consumeLoop_stop _ _ _ _ _ _ (by simpa using hg)]

/-- Helper: on a time-sorted nonempty queue with positive demand, the first
lot consumed is the head — the earliest-opened lot — and its time becomes the
trade's entry time. -/
theorem consumeLoop_head_first (Q : ℚ) (lot : Lot) (rest : List Lot)
    (hsort : List.Pairwise (fun a b : Lot => a.time ≤ b.time) (lot :: rest))
    (hQ : 0 < Q) :
    (consumeLoop (some Q) (some 0) (some 0) none (lot :: rest)).entryTime =
      some lot.time := by
  have hg : jsGt (some Q) (some 0) = true := by
    simp [jsGt, hQ]
  have hge : ∀ l ∈ rest, lot.time ≤ l.time :=
    fun l hl => List.rel_of_pairwise_cons hsort hl
  by_cases hk : jsLe (jsSub lot.qty (jsMin (some Q) lot.qty)) (some lotEps) = true
  · rw [consumeLoop_shift _ _ _ _ _ _ hg hk]
    exact consumeLoop_entryTime_ge rest lot.time hge _ _ _
  · rw [consumeLoop_keep _ _ _ _ _ _ hg (by simpa using hk),
      consumeLoop_stop _ _ _ _ _ _ (jsGt_after_keep (some Q) lot hg (by simpa using hk))]

/-- All queues in the map are ascending by lot time. -/
def StacksSorted (qs : String → List Lot) : Prop :=
  ∀ k, List.Pairwise (fun a b : Lot => a.time ≤ b.time) (qs k)

/-- Helper: processing one fill whose time bounds every stored lot keeps all
queues sorted and keeps every lot's time bounded by that fill's time. -/
theorem processFill_preserves (st : (String → List Lot) × List ClosedTrade) (f : Fill)
    (hs : StacksSorted st.1) (hb : ∀ k, ∀ l ∈ st.1 k, l.time ≤ f.time) :
    StacksSorted (processFill st f).1 ∧
    ∀ k, ∀ l ∈ (processFill st f).1 k, l.time ≤ f.time := by
  by_cases hO : f.action = "OPEN"
  · have hqueue : (processFill st f).1 =
        updateStacks st.1 (fillKey f) (st.1 (fillKey f) ++ [⟨f.time, f.avgFill, f.qty⟩]) := by
      simp [processFill, hO]
    rw [hqueue]
    constructor
    · intro k
      rw [updateStacks]
      by_cases hk : k = fillKey f
      · rw [if_pos hk]
        rw [List.pairwise_append]
        refine ⟨hs _, List.pairwise_singleton _ _, ?_⟩
        intro a ha b hbmem
        simp only [List.mem_singleton] at hbmem
        subst hbmem
        exact hb _ a ha
      · rw [if_neg hk]
        exact hs k
    · intro k l hl
      rw [updateStacks] at hl
      by_cases hk : k = fillKey f
      · rw [if_pos hk] at hl
        rcases List.mem_append.mp hl with hl | hl
        · exact hb _ l hl
        · simp only [List.mem_singleton] at hl
          subst hl
          exact le_refl _
      · rw [if_neg hk] at hl
        exact hb k l hl
  · by_cases hC : f.action = "CLOSE"
    · have hqueue : (processFill st f).1 =
          updateStacks st.1 (fillKey f)
            (consumeLoop f.qty (some 0) (some 0) none (st.1 (fillKey f))).stack := by
        rw [processFill_close st f hC]
      rw [hqueue]
      constructor
      · intro k
        rw [updateStacks]
        by_cases hk : k = fillKey f
        · rw [if_pos hk]
          exact consumedFromFront_sorted _ _
            (consumeLoop_front (st.1 (fillKey f)) f.qty (some 0) (some 0) none)
            (hs _)
        · rw [if_neg hk]
          exact hs k
      · intro k l hl
        rw [updateStacks] at hl
        by_cases hk : k = fillKey f
        · rw [if_pos hk] at hl
          obtain ⟨l0, hl0, hteq⟩ := consumedFromFront_times _ _
            (consumeLoop_front (st.1 (fillKey f)) f.qty (some 0) (some 0) none) l hl
          rw [hteq]
          exact hb _ l0 hl0
        · rw [if_neg hk] at hl
          exact hb k l hl
    · have hst : processFill st f = st := by
        simp [processFill, hO, hC]
      rw [hst]
      exact ⟨hs, hb⟩

/-- Helper: replaying a time-ascending fill list over sorted, time-bounded
queues keeps every queue sorted. -/
theorem processAll_stacks_sorted :
    ∀ (fills : List Fill) (st : (String → List Lot) × List ClosedTrade),
      List.Pairwise (fun a b : Fill => a.time ≤ b.time) fills →
      StacksSorted st.1 →
      (∀ g ∈ fills, ∀ k, ∀ l ∈ st.1 k, l.time ≤ g.time) →
      StacksSorted (fills.foldl processFill st).1
  | [], st, _, hs, _ => hs
  | f :: rest, st, hp, hs, hb => by
    rw [List.foldl_cons]
    have hbf : ∀ k, ∀ l ∈ st.1 k, l.time ≤ f.time := hb f (List.mem_cons_self _ _)
    obtain ⟨hs', hb'⟩ := processFill_preserves st f hs hbf
    apply processAll_stacks_sorted rest (processFill st f) hp.of_cons hs'
    intro g hg k l hl
    have h1 := hb' k l hl
    have h2 := List.rel_of_pairwise_cons hp hg
    omega

/-- Claim C2: fills are replayed in time-ascending order (first conjunct)
with ties kept in input order (second conjunct, stability in filter form);
during the replay every `(symbol,direction)` queue stays time-sorted (third
conjunct); a CLOSE against a sorted nonempty queue consumes the head — the
earliest-opened lot — first, recording its time as the entry time (fourth
conjunct); and the matching loop only ever consumes from the front of its
queue (fifth conjunct). -/
theorem c2_theorem (fills : List Fill) :
    List.Pairwise (fun a b : Fill => a.time ≤ b.time) (sortFillsByTime fills) ∧
    (∀ T : Int, (sortFillsByTime fills).filter (fun f => decide (f.time = T)) =
      fills.filter (fun f => decide (f.time = T))) ∧
    (∀ n : Nat, StacksSorted
      (((sortFillsByTime fills).take n).foldl processFill (fun _ => [], [])).1) ∧
    (∀ (Q : ℚ) (lot : Lot) (rest : List Lot), 0 < Q →
      List.Pairwise (fun a b : Lot => a.time ≤ b.time) (lot :: rest) →
      (consumeLoop (some Q) (some 0) (some 0) none (lot :: rest)).entryTime =
        some lot.time) ∧
    (∀ (r eqt en : JSNum) (et : Option Int) (s : List Lot),
      ConsumedFromFront s (consumeLoop r eqt en et s).stack) := by
  refine ⟨sortFillsByTime_sorted fills, sortFillsByTime_stable fills, ?_, ?_, ?_⟩
  · intro n
    apply processAll_stacks_sorted
    · exact List.Pairwise.sublist (List.take_sublist n _) (sortFillsByTime_sorted fills)
    · intro k
      exact List.Pairwise.nil
    · intro g _ k l hl
      exact absurd hl (List.not_mem_nil l)
  · intro Q lot rest hQ hsort
    exact consumeLoop_head_first Q lot rest hsort hQ
  · intro r eqt en et s
    exact consumeLoop_front s r eqt en et

/-- Claim C2, witness: the FIFO conjuncts applied to a concrete one-lot
queue. -/
theorem c2_witness :
    (consumeLoop (some (1 : ℚ)) (some 0) (some 0) none
      [⟨5, some 10, some 1⟩]).entryTime = some 5 ∧
    ConsumedFromFront [(⟨5, some 10, some 1⟩ : Lot)]
      (consumeLoop (some (1 : ℚ)) (some 0) (some 0) none
        [⟨5, some 10, some 1⟩]).stack := by
  constructor
  · exact (c2_theorem []).2.2.2.1 1 ⟨5, some 10, some 1⟩ [] one_pos
      (List.pairwise_singleton _ _)
  · exact (c2_theorem []).2.2.2.2 (some 1) (some 0) (some 0) none [⟨5, some 10, some 1⟩]

/-- Helper: a CLOSE of exactly `q1 + q2` against two lots of quantities
`q1, q2` at prices `p1, p2` consumes both lots fully, accumulating total
quantity `q1 + q2` and notional `q1*p1 + q2*p2`, and empties the queue. -/
theorem consumeLoop_two_lots (t1 t2 : Int) (q1 q2 p1 p2 : ℚ)
    (h1 : 0 < q1) (h2 : 0 < q2) :
    consumeLoop (some (q1 + q2)) (some 0) (some 0) none
      [⟨t1, some p1, some q1⟩, ⟨t2, some p2, some q2⟩] =
    ⟨some (q1 + q2), some (q1 * p1 + q2 * p2),
      some (if t2 < t1 then t2 else t1), []⟩ := by
  have hle1 : q1 ≤ q1 + q2 := by linarith
  have hg1 : jsGt (some (q1 + q2)) (some 0) = true := by
    simp [jsGt]
    linarith
  have hk1 : jsLe (jsSub (some q1) (jsMin (some (q1 + q2)) (some q1)))
      (some lotEps) = true := by
    simp [jsMin, jsSub, jsLe, min_eq_right hle1, lotEps]
  rw [consumeLoop_shift _ _ _ _ _ _ hg1 hk1]
  simp only [jsMin, jsSub, jsAdd, jsMul, min_eq_right hle1]
  have e1 : q1 + q2 - q1 = q2 := by ring
  have e2 : (0 : ℚ) + q1 = q1 := by ring
  have e3 : (0 : ℚ) + q1 * p1 = q1 * p1 := by ring
  rw [e1, e2, e3]
  have hg2 : jsGt (some q2) (some 0) = true := by
    simp [jsGt]
    linarith
  have hk2 : jsLe (jsSub (some q2) (jsMin (some q2) (some q2)))
      (some lotEps) = true := by
    simp [jsMin, jsSub, jsLe, lotEps]
  rw [consumeLoop_shift _ _ _ _ _ _ hg2 hk2]
  simp only [jsMin, jsSub, jsAdd, jsMul, min_self]
  rw [consumeLoop_nil]

/-- Claim C7: a single CLOSE of quantity `q1 + q2` that fully consumes two
open lots `q1@p1` and `q2@p2` records entry price exactly
`(q1*p1 + q2*p2) / (q1 + q2)`, end to end through
`buildClosedTradesFromFills`. -/
theorem c7_theorem (q1 q2 p1 p2 : ℚ) (h1 : 0 < q1) (h2 : 0 < q2) :
    (buildClosedTradesFromFills
        [⟨"BTCUSDT", "Open Long", "OPEN", "LONG", 0, some p1, some q1, none, none, none⟩,
         ⟨"BTCUSDT", "Open Long", "OPEN", "LONG", 1, some p2, some q2, none, none, none⟩,
         ⟨"BTCUSDT", "Close Long", "CLOSE", "LONG", 2, some 300, some (q1 + q2), none, none,
           none⟩]).map (fun t => t.entryPrice) =
      [some ((q1 * p1 + q2 * p2) / (q1 + q2))] := by
  have hsort : sortFillsByTime
      [⟨"BTCUSDT", "Open Long", "OPEN", "LONG", 0, some p1, some q1, none, none, none⟩,
       ⟨"BTCUSDT", "Open Long", "OPEN", "LONG", 1, some p2, some q2, none, none, none⟩,
       ⟨"BTCUSDT", "Close Long", "CLOSE", "LONG", 2, some 300, some (q1 + q2), none, none,
         none⟩] =
      [⟨"BTCUSDT", "Open Long", "OPEN", "LONG", 0, some p1, some q1, none, none, none⟩,
       ⟨"BTCUSDT", "Open Long", "OPEN", "LONG", 1, some p2, some q2, none, none, none⟩,
       ⟨"BTCUSDT", "Close Long", "CLOSE", "LONG", 2, some 300, some (q1 + q2), none, none,
         none⟩] := by
    apply List.mergeSort_of_sorted
    simp [List.pairwise_cons]
  have hg : jsGt (some (q1 + q2)) (some 0) = true := by
    simp [jsGt]
    linarith
  have hne : q1 + q2 ≠ 0 := by
    intro h
    linarith
  rw [buildClosedTradesFromFills, hsort, List.foldl_cons, List.foldl_cons,
    List.foldl_cons, List.foldl_nil]
  simp [processFill, fillKey, updateStacks, closeTradeOf,
    consumeLoop_two_lots 0 1 q1 q2 p1 p2 h1 h2, hg, jsDiv, hne, minsBetween]

/-- Claim C7, witness: the spec's scenario — CLOSE of 5 against lots 2@100
and 3@200 gives entry price 160. -/
theorem c7_witness :
    (buildClosedTradesFromFills
        [⟨"BTCUSDT", "Open Long", "OPEN", "LONG", 0, some 100, some 2, none, none, none⟩,
         ⟨"BTCUSDT", "Open Long", "OPEN", "LONG", 1, some 200, some 3, none, none, none⟩,
         ⟨"BTCUSDT", "Close Long", "CLOSE", "LONG", 2, some 300, some 5, none, none,
           none⟩]).map (fun t => t.entryPrice) = [some 160] := by
  have h := c7_theorem 2 3 100 200 (by norm_num) (by norm_num)
  simp only [show (2 : ℚ) + 3 = 5 by norm_num] at h
  rw [h]
  norm_num
